import Mathlib

/-!
Verification of the plain-text-to-EPUB conversion engine of
`src/apps/readest-app/src/utils/txt.ts` (class `TxtToEpubConverter`).

Texts are shallowly embedded as `List Char`; byte buffers as `List Nat`.
JavaScript string/regex behaviour is modelled directly: the segment
separator regex `(?:\r?\n){N,}|-{8,}\r?\n` as a hand-compiled matcher, the
chapter-heading regexes through a small backtracking regex interpreter with
JavaScript (leftmost, greedy, ordered-alternation) semantics, and
`String.prototype.split` with capture groups following the ECMAScript
SplitMatcher algorithm.
-/

namespace ReadestTxt

/-- Characters of a JavaScript string. -/
abbrev Str := List Char

/-- JavaScript whitespace: the `\s` class, also used by `String.prototype.trim`. -/
def jsWs (c : Char) : Bool :=
  c == ' ' || c == '\t' || c == '\n' || c.toNat == 11 || c.toNat == 12 || c == '\r' ||
  c.toNat == 0xa0 || c.toNat == 0x1680 || (0x2000 ≤ c.toNat && c.toNat ≤ 0x200a) ||
  c.toNat == 0x2028 || c.toNat == 0x2029 || c.toNat == 0x202f || c.toNat == 0x205f ||
  c.toNat == 0x3000 || c.toNat == 0xfeff

/-- JavaScript `String.prototype.trim`. -/
def jsTrim (s : Str) : Str :=
  ((s.dropWhile jsWs).reverse.dropWhile jsWs).reverse

/-! ## The segment separator `createSegmentRegex(t)`: `(?:\r?\n){t,}|-{8,}\r?\n` -/

/-- Greedy run of `\r?\n` units at the head of `s`: (units matched, characters consumed). -/
def nlRun : Str → Nat × Nat
  | '\r' :: '\n' :: rest => let r := nlRun rest; (r.1 + 1, r.2 + 2)
  | '\n' :: rest => let r := nlRun rest; (r.1 + 1, r.2 + 1)
  | _ => (0, 0)

/-- Greedy run of `-` characters at the head of `s`. -/
def dashRun : Str → Nat
  | '-' :: rest => dashRun rest + 1
  | _ => 0

/-- Length of a match of `createSegmentRegex t` starting exactly at the head of `s`:
first alternative a greedy run of at least `t` newline units, second alternative at
least eight dashes followed by `\r?\n` (the alternatives start with disjoint
characters, so JavaScript's ordered alternation needs no further care). -/
def sepMatchAt (t : Nat) (s : Str) : Option Nat :=
  let r := nlRun s
  if t ≤ r.1 then some r.2
  else
    let d := dashRun s
    if 8 ≤ d then
      match s.drop d with
      | '\r' :: '\n' :: _ => some (d + 2)
      | '\n' :: _ => some (d + 1)
      | _ => none
    else none

/-- Leftmost match of the separator regex in `s`: (start index, length). -/
def sepSearch (t : Nat) : Str → Option (Nat × Nat)
  | [] =>
    match sepMatchAt t [] with
    | some len => some (0, len)
    | none => none
  | c :: rest =>
    match sepMatchAt t (c :: rest) with
    | some len => some (0, len)
    | none => (sepSearch t rest).map fun p => (p.1 + 1, p.2)

/-- `txtContent.split(segmentRegex)`: pieces between successive leftmost matches,
with the final piece always emitted (so a trailing match yields a trailing empty
piece, as in JavaScript). `fuel` bounds the loop; `s.length + 1` is always enough
for `1 ≤ t`, since every match then consumes at least one character. -/
def splitSegAux (t : Nat) : Nat → Str → List Str
  | 0, s => [s]
  | fuel + 1, s =>
    match sepSearch t s with
    | none => [s]
    | some (i, len) => s.take i :: splitSegAux t fuel (s.drop (i + len))

/-- Buffered segmentation: `txtContent.split(createSegmentRegex(t))`. -/
def splitBySegmentRegex (t : Nat) (s : Str) : List Str :=
  splitSegAux t (s.length + 1) s

/-- Loop body of `consumeCompleteSegments`: while the separator regex matches the
pending text, emit the text before the match and continue after it. -/
def consumeSegAux (t : Nat) : Nat → Str → List Str × Str
  | 0, pending => ([], pending)
  | fuel + 1, pending =>
    match sepSearch t pending with
    | none => ([], pending)
    | some (i, len) =>
      let r := consumeSegAux t fuel (pending.drop (i + len))
      (pending.take i :: r.1, r.2)

/-- `consumeCompleteSegments(pending, segmentRegex)` from the source: the list of
complete segments and the remaining pending text. -/
def consumeCompleteSegments (t : Nat) (pending : Str) : List Str × Str :=
  consumeSegAux t (pending.length + 1) pending

/-- Chunk loop of `iterateSegmentsFromTextChunks`: append each chunk to the pending
accumulator, yield every complete segment, and after the last chunk yield the
pending text when it is nonempty. -/
def iterChunksAux (t : Nat) : List Str → Str → List Str
  | [], pending => if pending.isEmpty then [] else [pending]
  | c :: cs, pending =>
    let r := consumeCompleteSegments t (pending ++ c)
    r.1 ++ iterChunksAux t cs r.2

/-- `iterateSegmentsFromTextChunks(chunks, t)` from the source. -/
def iterateSegmentsFromTextChunks (t : Nat) (chunks : List Str) : List Str :=
  iterChunksAux t chunks []

/-- C1, counterexample. The claim is false as stated: with threshold 2 and chunks
`["A\n\n", "\nB"]` the streaming splitter consumes the two buffered newlines as a
complete separator before the third arrives, so it yields `["A", "\nB"]` while the
buffered split of the concatenation `"A\n\n\nB"` consumes the full three-newline run
and yields `["A", "B"]`; the sequences differ even after discarding empty segments. -/
theorem c1_stream_buffered_counterexample :
    iterateSegmentsFromTextChunks 2 ["A\n\n".toList, "\nB".toList] =
        ["A".toList, "\nB".toList] ∧
    splitBySegmentRegex 2 ("A\n\n\nB".toList) = ["A".toList, "B".toList] ∧
    iterateSegmentsFromTextChunks 2 ["A\n\n".toList, "\nB".toList] ≠
        splitBySegmentRegex 2 ("A\n\n\nB".toList) ∧
    (iterateSegmentsFromTextChunks 2 ["A\n\n".toList, "\nB".toList]).filter
        (fun p => !p.isEmpty) ≠
      (splitBySegmentRegex 2 ("A\n\n\nB".toList)).filter (fun p => !p.isEmpty) := by
  refine ⟨by decide, by decide, by decide, by decide⟩

/-! ## New definitions for the general C1 theorem -/

/-- Length of the `\r?\n` newline unit at the head of `s`, if any. -/
def nlUnitLen : Str → Option Nat
  | '\n' :: _ => some 1
  | '\r' :: '\n' :: _ => some 2
  | _ => none

/-- After the greedy newline-unit run of `tail`, the upcoming text `b` would
continue the run: either the run consumed all of `tail` and `b` begins with a
newline unit, or it left a final lone CR that the first character of `b`
completes into a `\r\n` unit. -/
def extendsAcross (tail b : Str) : Bool :=
  match tail.drop (nlRun tail).2 with
  | [] => (nlUnitLen b).isSome
  | ['\r'] => decide (b.head? = some '\n')
  | _ => false

/-- A chunk boundary between buffered text `a` and upcoming text `b` splits a
separator run in a way the streaming splitter consumes early: some tail of `a`
is a newline-unit run of at least `t` units reaching the boundary, and `b`
immediately extends that run. -/
def boundaryBad (t : Nat) (a b : Str) : Bool :=
  (List.range (a.length + 1)).any fun q =>
    decide (t ≤ (nlRun (a.drop q)).1) && extendsAcross (a.drop q) b

/-- The emissions and final pending text of the chunk loop. -/
def streamSteps (t : Nat) : List Str → Str → List Str × Str
  | [], p => ([], p)
  | c :: cs, p =>
    let r := consumeCompleteSegments t (p ++ c)
    let s := streamSteps t cs r.2
    (r.1 ++ s.1, s.2)

/-! ## Head-shape lemmas -/

theorem nlUnitLen_cons (c : Char) (rest : Str) :
    nlUnitLen (c :: rest) =
      if c = '\n' then some 1
      else if c = '\r' ∧ rest.head? = some '\n' then some 2
      else none := by
  cases rest with
  | nil =>
    by_cases h1 : c = '\n'
    · subst h1; rfl
    · by_cases h2 : c = '\r'
      · subst h2; simp [nlUnitLen]
      · simp [nlUnitLen, h1, h2]
  | cons d rest2 =>
    by_cases h1 : c = '\n'
    · subst h1; simp [nlUnitLen]
    · by_cases h2 : c = '\r'
      · subst h2
        by_cases h3 : d = '\n'
        · subst h3; simp [nlUnitLen]
        · simp [nlUnitLen, h3]
      · simp [nlUnitLen, h1, h2]

theorem nlRun_cons (c : Char) (rest : Str) :
    nlRun (c :: rest) =
      if c = '\n' then ((nlRun rest).1 + 1, (nlRun rest).2 + 1)
      else if c = '\r' ∧ rest.head? = some '\n' then
        ((nlRun rest.tail).1 + 1, (nlRun rest.tail).2 + 2)
      else (0, 0) := by
  cases rest with
  | nil =>
    by_cases h1 : c = '\n'
    · subst h1; rfl
    · by_cases h2 : c = '\r'
      · subst h2; simp [nlRun]
      · simp [nlRun, h1, h2]
  | cons d rest2 =>
    by_cases h1 : c = '\n'
    · subst h1; simp [nlRun]
    · by_cases h2 : c = '\r'
      · subst h2
        by_cases h3 : d = '\n'
        · subst h3; simp [nlRun]
        · simp [nlRun, h3]
      · simp [nlRun, h1, h2]

theorem dashRun_cons (c : Char) (rest : Str) :
    dashRun (c :: rest) = if c = '-' then dashRun rest + 1 else 0 := by
  by_cases h : c = '-'
  · subst h; simp [dashRun]
  · simp [dashRun, h]

/-- A positive newline run begins with a newline unit, and vice versa. -/
theorem nlRun_pos_iff (s : Str) : 1 ≤ (nlRun s).2 ↔ (nlUnitLen s).isSome := by
  cases s with
  | nil => simp [nlRun, nlUnitLen]
  | cons c rest =>
    rw [nlRun_cons, nlUnitLen_cons]
    by_cases h1 : c = '\n'
    · simp [h1]
    · by_cases h2 : c = '\r' ∧ rest.head? = some '\n'
      · simp [h1, h2]
      · simp [h1, h2]

theorem nlRun_units_le (s : Str) : (nlRun s).1 ≤ (nlRun s).2 := by
  induction s with
  | nil => simp [nlRun]
  | cons c rest ih =>
    by_cases h1 : c = '\n'
    · subst h1; simp [nlRun]; omega
    · by_cases h2 : c = '\r'
      · subst h2
        cases rest with
        | nil => simp [nlRun]
        | cons d rest2 =>
          by_cases h3 : d = '\n'
          · subst h3
            simp [nlRun] at ih ⊢
            omega
          · simp [nlRun, h3]
      · simp [nlRun, h1, h2]

theorem nlRun_le_length (s : Str) : (nlRun s).2 ≤ s.length := by
  induction s with
  | nil => simp [nlRun]
  | cons c rest ih =>
    by_cases h1 : c = '\n'
    · subst h1; simp [nlRun]; omega
    · by_cases h2 : c = '\r'
      · subst h2
        cases rest with
        | nil => simp [nlRun]
        | cons d rest2 =>
          by_cases h3 : d = '\n'
          · subst h3
            simp [nlRun] at ih ⊢
            omega
          · simp [nlRun, h3]
      · simp [nlRun, h1, h2]

theorem dashRun_le_length (s : Str) : dashRun s ≤ s.length := by
  induction s with
  | nil => simp [dashRun]
  | cons c rest ih =>
    rw [dashRun_cons]
    by_cases h : c = '-'
    · simp only [h, if_true, List.length_cons]; omega
    · simp [h]

/-! ## Append locality of the greedy runs -/

theorem nlRun_append_full (b : Str) :
    ∀ s : Str, (nlRun s).2 = s.length →
      nlRun (s ++ b) = ((nlRun s).1 + (nlRun b).1, (nlRun s).2 + (nlRun b).2)
  | [], _ => by simp [nlRun]
  | c :: rest, h => by
    by_cases h1 : c = '\n'
    · subst h1
      have h' : (nlRun rest).2 = rest.length := by
        simp [nlRun] at h; omega
    
      have ih := nlRun_append_full b rest h'
      simp only [List.cons_append]
      simp [nlRun, ih, Prod.ext_iff]
      omega
    · by_cases h2 : c = '\r'
      · subst h2
        cases rest with
        | nil => simp [nlRun] at h
        | cons d rest2 =>
          by_cases h3 : d = '\n'
          · subst h3
            have h' : (nlRun rest2).2 = rest2.length := by
              simp [nlRun] at h; omega
            have ih := nlRun_append_full b rest2 h'
            simp only [List.cons_append]
            simp [nlRun, ih, Prod.ext_iff]
            omega
          · simp [nlRun, h3] at h
      · simp [nlRun, h1, h2] at h

theorem nlRun_append_cr (b : Str) (hb : b.head? = some '\n') :
    ∀ s : Str, s.drop (nlRun s).2 = ['\r'] →
      nlRun (s ++ b) =
        ((nlRun s).1 + 1 + (nlRun b.tail).1, (nlRun s).2 + 2 + (nlRun b.tail).2)
  | [], h => by simp [nlRun] at h
  | c :: rest, h => by
    by_cases h1 : c = '\n'
    · subst h1
      have h' : rest.drop (nlRun rest).2 = ['\r'] := by
        simp only [nlRun, List.drop_succ_cons] at h
        exact h
      have ih := nlRun_append_cr b hb rest h'
      simp only [List.cons_append]
      simp [nlRun, ih, Prod.ext_iff]
      omega
    · by_cases h2 : c = '\r'
      · subst h2
        cases rest with
        | nil =>
          simp only [nlRun, List.drop_zero] at h
          cases b with
          | nil => simp at hb
          | cons e b2 =>
            simp only [List.head?_cons, Option.some.injEq] at hb
            subst hb
            simp [nlRun, Prod.ext_iff]
            omega
        | cons d rest2 =>
          by_cases h3 : d = '\n'
          · subst h3
            have h' : rest2.drop (nlRun rest2).2 = ['\r'] := by
              simp only [nlRun, List.drop_succ_cons] at h
              exact h
            have ih := nlRun_append_cr b hb rest2 h'
            simp only [List.cons_append]
            simp [nlRun, ih, Prod.ext_iff]
            omega
          · simp [nlRun, h3] at h
      · simp [nlRun, h1, h2] at h

theorem nlRun_append_stop (b : Str) :
    ∀ s : Str, s.drop (nlRun s).2 ≠ [] →
      ¬(s.drop (nlRun s).2 = ['\r'] ∧ b.head? = some '\n') →
      nlRun (s ++ b) = nlRun s
  | [], h1, _ => by simp [nlRun] at h1
  | c :: rest, h1, h2 => by
    by_cases hc1 : c = '\n'
    · subst hc1
      have e : (('\n' :: rest).drop (nlRun ('\n' :: rest)).2) = rest.drop (nlRun rest).2 := by
        simp [nlRun]
      rw [e] at h1 h2
      have ih := nlRun_append_stop b rest h1 h2
      simp only [List.cons_append]
      simp [nlRun, ih]
    · by_cases hc2 : c = '\r'
      · subst hc2
        cases rest with
        | nil =>
          simp only [nlRun, List.drop_zero] at h2
          have hb : ¬ b.head? = some '\n' := by
            intro hb'
            exact h2 ⟨trivial, hb'⟩
          cases b with
          | nil => simp [nlRun]
          | cons e b2 =>
            have he : ¬ e = '\n' := by
              intro h'; subst h'; exact hb rfl
            simp [nlRun, he]
        | cons d rest2 =>
          by_cases hd : d = '\n'
          · subst hd
            have e : (('\r' :: '\n' :: rest2).drop (nlRun ('\r' :: '\n' :: rest2)).2) =
                rest2.drop (nlRun rest2).2 := by
              simp [nlRun]
            rw [e] at h1 h2
            have ih := nlRun_append_stop b rest2 h1 h2
            simp only [List.cons_append]
            simp [nlRun, ih]
          · simp only [List.cons_append]
            simp [nlRun, hd]
      · simp only [List.cons_append]
        simp [nlRun, hc1, hc2]

theorem dashRun_append_full (b : Str) :
    ∀ s : Str, dashRun s = s.length → dashRun (s ++ b) = s.length + dashRun b
  | [], _ => by simp
  | c :: rest, h => by
    by_cases hc : c = '-'
    · subst hc
      have h' : dashRun rest = rest.length := by
        simp [dashRun] at h; omega
      have ih := dashRun_append_full b rest h'
      simp only [List.cons_append]
      simp [dashRun, ih]
      omega
    · simp [dashRun, hc] at h

theorem dashRun_append_stop (b : Str) :
    ∀ s : Str, dashRun s ≠ s.length → dashRun (s ++ b) = dashRun s
  | [], h => by simp [dashRun] at h
  | c :: rest, h => by
    by_cases hc : c = '-'
    · subst hc
      have h' : dashRun rest ≠ rest.length := by
        simp [dashRun] at h ⊢
        omega
      have ih := dashRun_append_stop b rest h'
      simp only [List.cons_append]
      simp [dashRun, ih]
    · simp only [List.cons_append]
      simp [dashRun, hc]

theorem dashRun_drop_head : ∀ s : Str, (s.drop (dashRun s)).head? ≠ some '-'
  | [] => by simp [dashRun]
  | c :: rest => by
    by_cases hc : c = '-'
    · subst hc
      have ih := dashRun_drop_head rest
      simp only [List.head?_drop] at ih
      simp [dashRun, ih]
    · simp [dashRun, hc, hc]

theorem dashRun_take : ∀ s : Str, s.take (dashRun s) = List.replicate (dashRun s) '-'
  | [] => by simp [dashRun]
  | c :: rest => by
    by_cases hc : c = '-'
    · subst hc
      have ih := dashRun_take rest
      simp [dashRun, ih, List.replicate_succ]
    · simp [dashRun, hc]

/-! ## Suffixes of a run that reaches the end of the string -/

theorem nlRun_drop_full :
    ∀ s : Str, (nlRun s).2 = s.length → ∀ k, (nlRun (s.drop k)).2 = s.length - k
  | [], _, k => by simp [nlRun]
  | c :: rest, h, k => by
    have hr : (nlRun rest).2 = rest.length := by
      by_cases hc1 : c = '\n'
      · subst hc1; simp [nlRun] at h; omega
      · by_cases hc2 : c = '\r'
        · subst hc2
          cases rest with
          | nil => simp [nlRun] at h
          | cons d rest2 =>
            by_cases hd : d = '\n'
            · subst hd
              simp [nlRun] at h ⊢
              omega
            · simp [nlRun, hd] at h
        · simp [nlRun, hc1, hc2] at h
    cases k with
    | zero => simpa using h
    | succ k' =>
      have ih := nlRun_drop_full rest hr k'
      simp only [List.drop_succ_cons, ih, List.length_cons]
      omega

theorem nlRun_drop_cr :
    ∀ s : Str, s.drop (nlRun s).2 = ['\r'] → ∀ k, k ≤ (nlRun s).2 →
      (s.drop k).drop ((nlRun (s.drop k)).2) = ['\r'] ∧
        (nlRun (s.drop k)).2 = (nlRun s).2 - k
  | [], h, _, _ => by simp [nlRun] at h
  | c :: rest, h, k, hk => by
    by_cases hc1 : c = '\n'
    · subst hc1
      have hshift : (nlRun ('\n' :: rest)).2 = (nlRun rest).2 + 1 := by simp [nlRun]
      have hr : rest.drop (nlRun rest).2 = ['\r'] := by
        have := h
        rw [hshift] at this
        simpa using this
      cases k with
      | zero =>
        exact ⟨by simpa using h, by simp⟩
      | succ k' =>
        have ih := nlRun_drop_cr rest hr k' (by omega)
        simp only [List.drop_succ_cons]
        refine ⟨ih.1, by rw [hshift]; omega⟩
    · by_cases hc2 : c = '\r'
      · subst hc2
        cases rest with
        | nil =>
          have hk0 : k = 0 := by
            simp only [nlRun] at hk
            omega
          subst hk0
          simp [nlRun]
        | cons d rest2 =>
          by_cases hd : d = '\n'
          · subst hd
            have hshift : (nlRun ('\r' :: '\n' :: rest2)).2 = (nlRun rest2).2 + 2 := by
              simp [nlRun]
            have hr2 : rest2.drop (nlRun rest2).2 = ['\r'] := by
              have := h
              rw [hshift] at this
              simpa using this
            have hr : ('\n' :: rest2).drop (nlRun ('\n' :: rest2)).2 = ['\r'] := by
              simp only [nlRun]
              simpa using hr2
            cases k with
            | zero => exact ⟨by simpa using h, by simp⟩
            | succ k' =>
              have ih := nlRun_drop_cr ('\n' :: rest2) hr k' ?_
              · simp only [List.drop_succ_cons]
                refine ⟨ih.1, ?_⟩
                have : (nlRun ('\n' :: rest2)).2 = (nlRun rest2).2 + 1 := by simp [nlRun]
                rw [hshift]
                omega
              · have : (nlRun ('\n' :: rest2)).2 = (nlRun rest2).2 + 1 := by simp [nlRun]
                rw [hshift] at hk
                omega
          · simp [nlRun, hd] at h
      · simp [nlRun, hc1, hc2] at h

/-! ## Characterizations of the separator matcher -/

theorem sepMatchAt_eq (t : Nat) (s : Str) :
    sepMatchAt t s =
      if t ≤ (nlRun s).1 then some (nlRun s).2
      else if 8 ≤ dashRun s then
        (nlUnitLen (s.drop (dashRun s))).map (fun u => dashRun s + u)
      else none := by
  unfold sepMatchAt
  by_cases h1 : t ≤ (nlRun s).1
  · simp [h1]
  · simp only [h1, if_false]
    by_cases h2 : 8 ≤ dashRun s
    · simp only [h2, if_true]
      rcases hd : s.drop (dashRun s) with _ | ⟨x, w⟩
      · simp [nlUnitLen]
      · by_cases hx1 : x = '\n'
        · subst hx1; simp [nlUnitLen]
        · by_cases hx2 : x = '\r'
          · subst hx2
            rcases w with _ | ⟨y, w2⟩
            · simp [nlUnitLen]
            · by_cases hy : y = '\n'
              · subst hy; simp [nlUnitLen]
              · simp [nlUnitLen, hy]
          · simp [nlUnitLen, hx1, hx2]
    · simp [h2]

theorem nlUnitLen_shape (s : Str) (u : Nat) (h : nlUnitLen s = some u) :
    (u = 1 ∧ ∃ w, s = '\n' :: w) ∨ (u = 2 ∧ ∃ w, s = '\r' :: '\n' :: w) := by
  rcases s with _ | ⟨x, w⟩
  · simp [nlUnitLen] at h
  · rw [nlUnitLen_cons] at h
    by_cases hx1 : x = '\n'
    · subst hx1
      simp at h
      exact Or.inl ⟨h.symm, w, rfl⟩
    · by_cases hx2 : x = '\r' ∧ w.head? = some '\n'
      · rcases hx2 with ⟨hx2, hw⟩
        subst hx2
        rcases w with _ | ⟨y, w2⟩
        · simp at hw
        · simp only [List.head?_cons, Option.some.injEq] at hw
          subst hw
          simp [hx1] at h
          exact Or.inr ⟨h.symm, w2, rfl⟩
      · simp [hx1, hx2] at h

theorem nlUnitLen_isSome_dashRun (s : Str) (h : (nlUnitLen s).isSome) : dashRun s = 0 := by
  rcases ho : nlUnitLen s with _ | u
  · simp [ho] at h
  · rcases nlUnitLen_shape s u ho with ⟨_, w, rfl⟩ | ⟨_, w, rfl⟩
    · simp [dashRun]
    · simp [dashRun]

theorem nlUnitLen_none_nlRun (s : Str) (h : nlUnitLen s = none) : nlRun s = (0, 0) := by
  have h2 := (nlRun_pos_iff s).not
  simp [h] at h2
  have h3 := nlRun_units_le s
  have : (nlRun s).2 = 0 := by omega
  have : (nlRun s).1 = 0 := by omega
  ext <;> simp_all

theorem sepMatchAt_nil (t : Nat) (ht : 1 ≤ t) : sepMatchAt t [] = none := by
  rw [sepMatchAt_eq]
  simp [nlRun, dashRun]
  omega

theorem sepSearch_nil (t : Nat) (ht : 1 ≤ t) : sepSearch t [] = none := by
  simp [sepSearch, sepMatchAt_nil t ht]

theorem sepMatchAt_len (t : Nat) (ht : 1 ≤ t) (s : Str) (len : Nat)
    (h : sepMatchAt t s = some len) : 1 ≤ len ∧ len ≤ s.length := by
  rw [sepMatchAt_eq] at h
  by_cases h1 : t ≤ (nlRun s).1
  · simp only [h1, if_true, Option.some.injEq] at h
    subst h
    have := nlRun_units_le s
    have := nlRun_le_length s
    omega
  · simp only [h1, if_false] at h
    by_cases h2 : 8 ≤ dashRun s
    · simp only [h2, if_true, Option.map_eq_some'] at h
      rcases h with ⟨u, hu, rfl⟩
      rcases nlUnitLen_shape _ u hu with ⟨rfl, w, hw⟩ | ⟨rfl, w, hw⟩
      · have : (s.drop (dashRun s)).length = s.length - dashRun s := by simp
        rw [hw] at this
        simp at this
        have := dashRun_le_length s
        omega
      · have : (s.drop (dashRun s)).length = s.length - dashRun s := by simp
        rw [hw] at this
        simp at this
        have := dashRun_le_length s
        omega
    · simp [h2] at h

theorem sepSearch_some_spec (t : Nat) (ht : 1 ≤ t) :
    ∀ (s : Str) (i len : Nat), sepSearch t s = some (i, len) →
      sepMatchAt t (s.drop i) = some len ∧ 1 ≤ len ∧ i + len ≤ s.length
  | [], i, len, h => by
    rw [sepSearch_nil t ht] at h
    exact absurd h (by simp)
  | c :: rest, i, len, h => by
    unfold sepSearch at h
    rcases hm : sepMatchAt t (c :: rest) with _ | len'
    · rw [hm] at h
      simp only [Option.map_eq_some'] at h
      rcases h with ⟨⟨i', len2⟩, hsr, hp⟩
      simp only [Prod.mk.injEq] at hp
      rcases hp with ⟨hi, hlen⟩
      subst hi hlen
      have ih := sepSearch_some_spec t ht rest i' len2 hsr
      refine ⟨by simpa using ih.1, ih.2.1, by simp; omega⟩
    · rw [hm] at h
      simp only [Option.some.injEq, Prod.mk.injEq] at h
      rcases h with ⟨hi, hlen⟩
      subst hlen
      subst hi
      have := sepMatchAt_len t ht _ _ hm
      exact ⟨by simpa using hm, this.1, by simpa using this.2⟩

/-! ## Boundary-condition helpers -/

theorem boundaryBad_elim {t : Nat} {a b : Str} (h : boundaryBad t a b = false)
    (q : Nat) (hq : q < a.length + 1) :
    ¬(t ≤ (nlRun (a.drop q)).1 ∧ extendsAcross (a.drop q) b = true) := by
  intro ⟨h1, h2⟩
  rw [boundaryBad, List.any_eq_false] at h
  have := h q (List.mem_range.mpr hq)
  simp [h1, h2] at this

theorem boundaryBad_intro (t : Nat) (ht : 1 ≤ t) {a b : Str} (q : Nat)
    (h1 : t ≤ (nlRun (a.drop q)).1) (h2 : extendsAcross (a.drop q) b = true) :
    boundaryBad t a b = true := by
  rw [boundaryBad, List.any_eq_true]
  refine ⟨q, List.mem_range.mpr ?_, by simp [h1, h2]⟩
  have hpos : 1 ≤ (nlRun (a.drop q)).2 := le_trans (le_trans ht h1) (nlRun_units_le _)
  have hlen := nlRun_le_length (a.drop q)
  have : 1 ≤ (a.drop q).length := by omega
  simp at this
  omega

theorem boundaryBad_drop (t : Nat) (ht : 1 ≤ t) {a b : Str}
    (h : boundaryBad t a b = false) (k : Nat) : boundaryBad t (a.drop k) b = false := by
  by_contra hcon
  rw [Bool.not_eq_false, boundaryBad, List.any_eq_true] at hcon
  rcases hcon with ⟨q, _, hq⟩
  simp only [Bool.and_eq_true, decide_eq_true_eq] at hq
  rw [List.drop_drop] at hq
  have hbad := boundaryBad_intro t ht (k + q) hq.1 hq.2
  rw [h] at hbad
  exact absurd hbad (by simp)

theorem extendsAcross_nil (tail : Str) : extendsAcross tail [] = false := by
  unfold extendsAcross
  split <;> simp [nlUnitLen]

theorem boundaryBad_nil_right (t : Nat) (a : Str) : boundaryBad t a [] = false := by
  rw [boundaryBad, List.any_eq_false]
  intro q _
  simp [extendsAcross_nil]

/-! ## No separator inside pure dash runs -/

theorem sepMatchAt_replicate_dash (t : Nat) (ht : 1 ≤ t) (m : Nat) (w : Str)
    (hw : w = [] ∨ w = ['\r']) :
    sepMatchAt t (List.replicate m '-' ++ w) = none := by
  rw [sepMatchAt_eq]
  have hdr : dashRun (List.replicate m '-' ++ w) = m := by
    induction m with
    | zero =>
      rcases hw with rfl | rfl
      · simp [dashRun]
      · simp [dashRun]
    | succ m' ih =>
      rw [List.replicate_succ]
      simp [dashRun, ih]
  have hnl : nlRun (List.replicate m '-' ++ w) = (0, 0) := by
    cases m with
    | zero =>
      rcases hw with rfl | rfl
      · simp [nlRun]
      · simp [nlRun]
    | succ m' =>
      rw [List.replicate_succ]
      simp [nlRun]
  have hdrop : (List.replicate m '-' ++ w).drop m = w := by
    rw [List.drop_append_of_le_length (by simp)]
    simp
  rw [hnl, hdr, hdrop]
  have hu : nlUnitLen w = none := by
    rcases hw with rfl | rfl
    · rfl
    · rfl
  simp [hu]
  omega

theorem sepSearch_replicate_dash (t : Nat) (ht : 1 ≤ t) :
    ∀ (m : Nat) (w : Str), (w = [] ∨ w = ['\r']) →
      sepSearch t (List.replicate m '-' ++ w) = none
  | 0, w, hw => by
    rcases hw with rfl | rfl
    · exact sepSearch_nil t ht
    · simp only [List.replicate, List.nil_append, sepSearch]
      rw [show sepMatchAt t ['\r'] = none from sepMatchAt_replicate_dash t ht 0 ['\r'] (Or.inr rfl)]
      rw [sepMatchAt_nil t ht]
      rfl
  | m + 1, w, hw => by
    rw [List.replicate_succ, List.cons_append]
    unfold sepSearch
    rw [show sepMatchAt t ('-' :: (List.replicate m '-' ++ w)) = none by
      have := sepMatchAt_replicate_dash t ht (m + 1) w hw
      rwa [List.replicate_succ, List.cons_append] at this]
    rw [sepSearch_replicate_dash t ht m w hw]
    rfl

/-! ## Preservation of a position-0 match under append -/

theorem drop_nlRun_nil_full {a : Str} (hlo : a.drop (nlRun a).2 = []) :
    (nlRun a).2 = a.length := by
  have h1 := nlRun_le_length a
  have h2 : a.length ≤ (nlRun a).2 := by
    have := congrArg List.length hlo
    simp at this
    omega
  omega

theorem sepMatchAt_append_some (t : Nat) (ht : 1 ≤ t) (a b : Str) (len : Nat)
    (h : sepMatchAt t a = some len)
    (hne : ¬(t ≤ (nlRun a).1 ∧ extendsAcross a b = true)) :
    sepMatchAt t (a ++ b) = some len := by
  rw [sepMatchAt_eq] at h
  by_cases h1 : t ≤ (nlRun a).1
  · simp only [h1, if_true, Option.some.injEq] at h
    subst h
    have hext : extendsAcross a b = false := by
      rcases Bool.eq_false_or_eq_true (extendsAcross a b) with h' | h'
      · exact absurd ⟨h1, h'⟩ hne
      · exact h'
    have hnl : nlRun (a ++ b) = nlRun a := by
      unfold extendsAcross at hext
      rcases hlo : a.drop (nlRun a).2 with _ | ⟨x, w⟩
      · rw [hlo] at hext
        have hbn : nlUnitLen b = none := by
          rcases ho : nlUnitLen b with _ | u
          · rfl
          · rw [ho] at hext
            simp at hext
        have hfull := drop_nlRun_nil_full hlo
        have hb0 : nlRun b = (0, 0) := nlUnitLen_none_nlRun b hbn
        rw [nlRun_append_full b a hfull, hb0]
        simp
      · rcases w with _ | ⟨y, w2⟩
        · by_cases hx : x = '\r'
          · subst hx
            rw [hlo] at hext
            simp only [decide_eq_false_iff_not] at hext
            exact nlRun_append_stop b a (by rw [hlo]; simp)
              (by rw [hlo]; exact fun h' => hext h'.2)
          · exact nlRun_append_stop b a (by rw [hlo]; simp)
              (by rw [hlo]; intro h'; exact hx (by
                have := h'.1
                simp at this
                exact this))
        · exact nlRun_append_stop b a (by rw [hlo]; simp)
            (by rw [hlo]; intro h'; simp at h')
    rw [sepMatchAt_eq, hnl]
    simp [h1]
  · simp only [h1, if_false] at h
    by_cases h2 : 8 ≤ dashRun a
    · simp only [h2, if_true, Option.map_eq_some'] at h
      rcases h with ⟨u, hu, rfl⟩
      obtain ⟨rest, rfl⟩ : ∃ rest, a = '-' :: rest := by
        have hpos : 1 ≤ dashRun a := by omega
        cases a with
        | nil => simp [dashRun] at hpos
        | cons c rest =>
          rw [dashRun_cons] at hpos
          by_cases hc : c = '-'
          · exact ⟨rest, by rw [hc]⟩
          · simp [hc] at hpos
      have hne2 : dashRun ('-' :: rest) ≠ ('-' :: rest).length := by
        intro hall
        rw [hall, List.drop_length] at hu
        simp [nlUnitLen] at hu
      have hd := dashRun_append_stop b _ hne2
      have hdlen : dashRun ('-' :: rest) ≤ ('-' :: rest).length := dashRun_le_length _
      have hdrop : (('-' :: rest) ++ b).drop (dashRun ('-' :: rest)) =
          (('-' :: rest).drop (dashRun ('-' :: rest))) ++ b := by
        rw [List.drop_append_of_le_length hdlen]
      have hnl0 : nlRun (('-' :: rest) ++ b) = (0, 0) := by
        simp [nlRun]
      rw [sepMatchAt_eq, hnl0, hd, hdrop]
      have hu2 : nlUnitLen ((('-' :: rest).drop (dashRun ('-' :: rest))) ++ b) = some u := by
        rcases nlUnitLen_shape _ u hu with ⟨rfl, w, hw⟩ | ⟨rfl, w, hw⟩
        · rw [hw]
          simp [nlUnitLen]
        · rw [hw]
          simp [nlUnitLen]
      rw [hu2]
      simp [h2]
      omega
    · simp [h2] at h

/-! ## Preservation of a position-0 non-match under append, when a later match exists -/

theorem sepMatchAt_cr (t : Nat) (ht : 1 ≤ t) : sepMatchAt t ['\r'] = none := by
  rw [sepMatchAt_eq]
  simp [nlRun, dashRun, nlUnitLen]
  omega

theorem sepMatchAt_append_none (t : Nat) (ht : 1 ≤ t) (c : Char) (rest b : Str)
    (i len : Nat)
    (hnone : sepMatchAt t (c :: rest) = none)
    (hsr : sepSearch t rest = some (i, len))
    (hgood : boundaryBad t (c :: rest) b = false) :
    sepMatchAt t ((c :: rest) ++ b) = none := by
  obtain ⟨a, ha⟩ : ∃ a, a = c :: rest := ⟨c :: rest, rfl⟩
  rw [← ha] at hnone hgood ⊢
  rw [sepMatchAt_eq] at hnone
  have hu : ¬ t ≤ (nlRun a).1 := by
    intro h'
    rw [if_pos h'] at hnone
    exact absurd hnone (by simp)
  rw [if_neg hu] at hnone
  obtain ⟨hm, hlen1, hlen2⟩ := sepSearch_some_spec t ht rest i len hsr
  have hilt : i + 1 < a.length := by
    rw [ha]
    simp only [List.length_cons]
    omega
  have hdropi : a.drop (i + 1) = rest.drop i := by
    rw [ha]
    simp
  rw [← hdropi] at hm
  have halt1 : ¬ t ≤ (nlRun (a ++ b)).1 := by
    rcases hlo : a.drop (nlRun a).2 with _ | ⟨x, w⟩
    · have hfull := drop_nlRun_nil_full hlo
      rcases hbn : nlUnitLen b with _ | u
      · have hb0 := nlUnitLen_none_nlRun b hbn
        rw [nlRun_append_full b a hfull, hb0]
        simpa using hu
      · exfalso
        have hsuf : (nlRun (a.drop (i + 1))).2 = a.length - (i + 1) :=
          nlRun_drop_full a hfull (i + 1)
        have hpos2 : 1 ≤ (nlRun (a.drop (i + 1))).2 := by
          rw [hsuf]
          clear * - hilt
          omega

        have hds : dashRun (a.drop (i + 1)) = 0 :=
          nlUnitLen_isSome_dashRun _ ((nlRun_pos_iff _).mp hpos2)
        rw [sepMatchAt_eq] at hm
        have hm1 : t ≤ (nlRun (a.drop (i + 1))).1 := by
          by_contra hm1
          rw [if_neg hm1, hds] at hm
          simp at hm
        have hextq : extendsAcross (a.drop (i + 1)) b = true := by
          unfold extendsAcross
          have hz : (a.drop (i + 1)).drop ((nlRun (a.drop (i + 1))).2) = [] := by
            rw [hsuf, List.drop_drop]
            have he : (i + 1) + (a.length - (i + 1)) = a.length := by omega
            rw [he, List.drop_length]
          rw [hz]
          simp [hbn]
        exact absurd (boundaryBad_intro t ht (i + 1) hm1 hextq) (by simp [hgood])
    · rcases w with _ | ⟨y, w2⟩
      · by_cases hx : x = '\r'
        · subst hx
          by_cases hbh : b.head? = some '\n'
          · exfalso
            have hlen_a : a.length = (nlRun a).2 + 1 := by
              have h' := congrArg List.length hlo
              simp only [List.length_drop, List.length_cons, List.length_nil] at h'
              have := nlRun_le_length a
              omega
            have hk : i + 1 ≤ (nlRun a).2 := by omega
            obtain ⟨hcr, hlen'⟩ := nlRun_drop_cr a hlo (i + 1) hk
            have hklt : i + 1 < (nlRun a).2 := by
              rcases Nat.lt_or_ge (i + 1) (nlRun a).2 with h' | h'
              · exact h'
              · exfalso
                have he : i + 1 = (nlRun a).2 := by omega
                have hdr : a.drop (i + 1) = ['\r'] := by
                  rw [he]
                  exact hlo
                rw [hdr, sepMatchAt_cr t ht] at hm
                exact absurd hm (by simp)
            have hpos2 : 1 ≤ (nlRun (a.drop (i + 1))).2 := by
              rw [hlen']
              clear * - hklt
              omega
            have hds : dashRun (a.drop (i + 1)) = 0 :=
              nlUnitLen_isSome_dashRun _ ((nlRun_pos_iff _).mp hpos2)
            rw [sepMatchAt_eq] at hm
            have hm1 : t ≤ (nlRun (a.drop (i + 1))).1 := by
              by_contra hm1
              rw [if_neg hm1, hds] at hm
              simp at hm
            have hextq : extendsAcross (a.drop (i + 1)) b = true := by
              unfold extendsAcross
              rw [hcr]
              simp [hbh]
            exact absurd (boundaryBad_intro t ht (i + 1) hm1 hextq) (by simp [hgood])
          · rw [nlRun_append_stop b a (by rw [hlo]; simp)
              (by rw [hlo]; intro h'; exact hbh h'.2)]
            exact hu
        · rw [nlRun_append_stop b a (by rw [hlo]; simp)
            (by rw [hlo]; intro h'; exact hx (by
              have h2 := h'.1
              simp at h2
              exact h2))]
          exact hu
      · rw [nlRun_append_stop b a (by rw [hlo]; simp)
          (by rw [hlo]; intro h'; simp at h')]
        exact hu
  rw [sepMatchAt_eq, if_neg halt1]
  by_cases hall : dashRun a = a.length
  · exfalso
    have htake := dashRun_take a
    rw [hall, List.take_length] at htake
    have hrest : rest = List.replicate rest.length '-' := by
      rw [ha] at htake
      simp only [List.length_cons, List.replicate_succ] at htake
      exact (List.cons.injEq _ _ _ _).mp htake |>.2
    have := sepSearch_replicate_dash t ht rest.length [] (Or.inl rfl)
    rw [List.append_nil, ← hrest] at this
    rw [this] at hsr
    exact absurd hsr (by simp)
  · have hlt : dashRun a < a.length := lt_of_le_of_ne (dashRun_le_length a) hall
    have hd := dashRun_append_stop b a hall
    rw [hd]
    by_cases hd8 : 8 ≤ dashRun a
    · rw [if_pos hd8] at hnone
      have hdnl : nlUnitLen (a.drop (dashRun a)) = none := by
        rcases ho : nlUnitLen (a.drop (dashRun a)) with _ | u
        · rfl
        · rw [ho] at hnone
          simp at hnone
      rw [if_pos hd8]
      have hdrop : (a ++ b).drop (dashRun a) = (a.drop (dashRun a)) ++ b :=
        List.drop_append_of_le_length (le_of_lt hlt)
      rw [hdrop]
      rcases hxd : a.drop (dashRun a) with _ | ⟨x, w⟩
      · exfalso
        have h' := congrArg List.length hxd
        simp at h'
        omega
      · have hxne : ¬ x = '-' := by
          have h' := dashRun_drop_head a
          rw [hxd] at h'
          simpa using h'
        rw [hxd] at hdnl
        rw [nlUnitLen_cons] at hdnl
        by_cases hx1 : x = '\n'
        · rw [if_pos hx1] at hdnl
          exact absurd hdnl (by simp)
        · rw [if_neg hx1] at hdnl
          by_cases hx2 : x = '\r' ∧ w.head? = some '\n'
          · rw [if_pos hx2] at hdnl
            exact absurd hdnl (by simp)
          · by_cases hxr : x = '\r'
            · subst hxr
              rcases w with _ | ⟨y, w2⟩
              · exfalso
                have htake := dashRun_take a
                have ha2 : a = List.replicate (dashRun a) '-' ++ ['\r'] := by
                  conv_lhs => rw [← List.take_append_drop (dashRun a) a]
                  rw [htake, hxd]
                obtain ⟨d', hd'⟩ : ∃ d', dashRun a = d' + 1 := ⟨dashRun a - 1, by omega⟩
                rw [hd', List.replicate_succ, List.cons_append] at ha2
                have hrest : rest = List.replicate d' '-' ++ ['\r'] := by
                  rw [ha] at ha2
                  exact (List.cons.injEq _ _ _ _).mp ha2 |>.2
                have h' := sepSearch_replicate_dash t ht d' ['\r'] (Or.inr rfl)
                rw [← hrest] at h'
                rw [h'] at hsr
                exact absurd hsr (by simp)
              · have hy : ¬ y = '\n' := by
                  intro h'
                  exact hx2 ⟨rfl, by simp [h']⟩
                simp only [List.cons_append]
                rw [nlUnitLen_cons]
                simp [hy]
            · simp only [List.cons_append]
              rw [nlUnitLen_cons]
              simp [hx1, hxr]
    · rw [if_neg hd8]

/-! ## The leftmost match survives appending the upcoming text -/

theorem sepSearch_append (t : Nat) (ht : 1 ≤ t) (b : Str) :
    ∀ (a : Str) (i len : Nat), sepSearch t a = some (i, len) →
      boundaryBad t a b = false → sepSearch t (a ++ b) = some (i, len)
  | [], i, len, h, _ => by
    rw [sepSearch_nil t ht] at h
    exact absurd h (by simp)
  | c :: rest, i, len, h, hgood => by
    rcases hm : sepMatchAt t (c :: rest) with _ | len'
    · unfold sepSearch at h
      rw [hm] at h
      simp only [Option.map_eq_some'] at h
      rcases h with ⟨⟨i', len2⟩, hsr, hp⟩
      simp only [Prod.mk.injEq] at hp
      rcases hp with ⟨hi, hlen⟩
      subst hi hlen
      have hgood' : boundaryBad t rest b = false := by
        have := boundaryBad_drop t ht hgood 1
        simpa using this
      have ih := sepSearch_append t ht b rest i' len2 hsr hgood'
      have hmn := sepMatchAt_append_none t ht c rest b i' len2 hm hsr hgood
      show sepSearch t (c :: (rest ++ b)) = some (i' + 1, len2)
      unfold sepSearch
      rw [show sepMatchAt t (c :: (rest ++ b)) = none from hmn, ih]
      rfl
    · unfold sepSearch at h
      rw [hm] at h
      simp only [Option.some.injEq, Prod.mk.injEq] at h
      rcases h with ⟨hi, hlen⟩
      subst hlen
      subst hi
      have hne : ¬(t ≤ (nlRun (c :: rest)).1 ∧ extendsAcross (c :: rest) b = true) := by
        have := boundaryBad_elim hgood 0 (by simp)
        simpa using this
      have hms := sepMatchAt_append_some t ht (c :: rest) b len' hm hne
      show sepSearch t (c :: (rest ++ b)) = some (0, len')
      unfold sepSearch
      rw [show sepMatchAt t (c :: (rest ++ b)) = some len' from hms]

/-! ## Fuel invariance and the consume fixpoint -/

theorem splitSegAux_fuel (t : Nat) (ht : 1 ≤ t) :
    ∀ (n : Nat) (s : Str) (f1 f2 : Nat), s.length ≤ n → s.length < f1 → s.length < f2 →
      splitSegAux t f1 s = splitSegAux t f2 s := by
  intro n
  induction n with
  | zero =>
    intro s f1 f2 hn h1 h2
    have hs : s = [] := List.eq_nil_of_length_eq_zero (Nat.le_zero.mp hn)
    subst hs
    obtain ⟨g1, rfl⟩ : ∃ g, f1 = g + 1 := ⟨f1 - 1, by omega⟩
    obtain ⟨g2, rfl⟩ : ∃ g, f2 = g + 1 := ⟨f2 - 1, by omega⟩
    simp [splitSegAux, sepSearch_nil t ht]
  | succ n ih =>
    intro s f1 f2 hn h1 h2
    obtain ⟨g1, rfl⟩ : ∃ g, f1 = g + 1 := ⟨f1 - 1, by omega⟩
    obtain ⟨g2, rfl⟩ : ∃ g, f2 = g + 1 := ⟨f2 - 1, by omega⟩
    simp only [splitSegAux]
    rcases hs : sepSearch t s with _ | ⟨i, len⟩
    · rfl
    · obtain ⟨_, hlen1, hlen2⟩ := sepSearch_some_spec t ht s i len hs
      have hrec := ih (s.drop (i + len)) g1 g2 (by simp; omega) (by simp; omega)
        (by simp; omega)
      show s.take i :: splitSegAux t g1 (s.drop (i + len)) =
        s.take i :: splitSegAux t g2 (s.drop (i + len))
      rw [hrec]

theorem consumeSegAux_fuel (t : Nat) (ht : 1 ≤ t) :
    ∀ (n : Nat) (s : Str) (f1 f2 : Nat), s.length ≤ n → s.length < f1 → s.length < f2 →
      consumeSegAux t f1 s = consumeSegAux t f2 s := by
  intro n
  induction n with
  | zero =>
    intro s f1 f2 hn h1 h2
    have hs : s = [] := List.eq_nil_of_length_eq_zero (Nat.le_zero.mp hn)
    subst hs
    obtain ⟨g1, rfl⟩ : ∃ g, f1 = g + 1 := ⟨f1 - 1, by omega⟩
    obtain ⟨g2, rfl⟩ : ∃ g, f2 = g + 1 := ⟨f2 - 1, by omega⟩
    simp [consumeSegAux, sepSearch_nil t ht]
  | succ n ih =>
    intro s f1 f2 hn h1 h2
    obtain ⟨g1, rfl⟩ : ∃ g, f1 = g + 1 := ⟨f1 - 1, by omega⟩
    obtain ⟨g2, rfl⟩ : ∃ g, f2 = g + 1 := ⟨f2 - 1, by omega⟩
    simp only [consumeSegAux]
    rcases hs : sepSearch t s with _ | ⟨i, len⟩
    · rfl
    · obtain ⟨_, hlen1, hlen2⟩ := sepSearch_some_spec t ht s i len hs
      have hrec := ih (s.drop (i + len)) g1 g2 (by simp; omega) (by simp; omega)
        (by simp; omega)
      show (s.take i :: (consumeSegAux t g1 (s.drop (i + len))).1,
          (consumeSegAux t g1 (s.drop (i + len))).2) =
        (s.take i :: (consumeSegAux t g2 (s.drop (i + len))).1,
          (consumeSegAux t g2 (s.drop (i + len))).2)
      rw [hrec]

theorem consumeSegAux_fix (t : Nat) (ht : 1 ≤ t) :
    ∀ (n : Nat) (s : Str) (fuel : Nat), s.length ≤ n → s.length < fuel →
      sepSearch t (consumeSegAux t fuel s).2 = none := by
  intro n
  induction n with
  | zero =>
    intro s fuel hn hf
    have hs : s = [] := List.eq_nil_of_length_eq_zero (Nat.le_zero.mp hn)
    subst hs
    obtain ⟨g, rfl⟩ : ∃ g, fuel = g + 1 := ⟨fuel - 1, by omega⟩
    simp [consumeSegAux, sepSearch_nil t ht]
  | succ n ih =>
    intro s fuel hn hf
    obtain ⟨g, rfl⟩ : ∃ g, fuel = g + 1 := ⟨fuel - 1, by omega⟩
    simp only [consumeSegAux]
    rcases hs : sepSearch t s with _ | ⟨i, len⟩
    · simpa using hs
    · obtain ⟨_, hlen1, hlen2⟩ := sepSearch_some_spec t ht s i len hs
      exact ih (s.drop (i + len)) g (by simp; omega) (by simp; omega)

theorem consumeSegAux_suffix (t : Nat) :
    ∀ (fuel : Nat) (s : Str), ∃ m, m ≤ s.length ∧ (consumeSegAux t fuel s).2 = s.drop m
  | 0, s => ⟨0, by simp [consumeSegAux]⟩
  | fuel + 1, s => by
    simp only [consumeSegAux]
    rcases hs : sepSearch t s with _ | ⟨i, len⟩
    · exact ⟨0, by simp⟩
    · obtain ⟨m, hm, heq⟩ := consumeSegAux_suffix t fuel (s.drop (i + len))
      refine ⟨min (i + len + m) s.length, Nat.min_le_right _ _, ?_⟩
      rcases Nat.le_total (i + len + m) s.length with hle | hge
      · rw [Nat.min_eq_left hle]
        simp only [heq, List.drop_drop]
      · rw [Nat.min_eq_right hge, List.drop_length]
        rw [heq, List.drop_drop]
        apply List.drop_eq_nil_of_le
        omega

/-! ## The buffered split factors through one consume pass -/

theorem split_append_consume (t : Nat) (ht : 1 ≤ t) (b : Str) :
    ∀ (n : Nat) (a : Str), a.length ≤ n → boundaryBad t a b = false →
      splitBySegmentRegex t (a ++ b) =
        (consumeCompleteSegments t a).1 ++
          splitBySegmentRegex t ((consumeCompleteSegments t a).2 ++ b) := by
  intro n
  induction n with
  | zero =>
    intro a hn hgood
    have ha : a = [] := List.eq_nil_of_length_eq_zero (Nat.le_zero.mp hn)
    subst ha
    simp [consumeCompleteSegments, consumeSegAux, sepSearch_nil t ht]
  | succ n ih =>
    intro a hn hgood
    rcases hs : sepSearch t a with _ | ⟨i, len⟩
    · have hcons : consumeCompleteSegments t a = ([], a) := by
        unfold consumeCompleteSegments
        simp [consumeSegAux, hs]
      rw [hcons]
      simp
    · obtain ⟨hm, hlen1, hlen2⟩ := sepSearch_some_spec t ht a i len hs
      have hsa := sepSearch_append t ht b a i len hs hgood
      have htake : (a ++ b).take i = a.take i :=
        List.take_append_of_le_length (by omega)
      have hdrop : (a ++ b).drop (i + len) = (a.drop (i + len)) ++ b :=
        List.drop_append_of_le_length (by omega)
      have hih := ih (a.drop (i + len)) (by simp; omega)
        (boundaryBad_drop t ht hgood (i + len))
      have hcons : consumeSegAux t (a.length + 1) a =
          (a.take i :: (consumeSegAux t ((a.drop (i + len)).length + 1) (a.drop (i + len))).1,
            (consumeSegAux t ((a.drop (i + len)).length + 1) (a.drop (i + len))).2) := by
        have h1 : consumeSegAux t (a.length + 1) a =
            (a.take i :: (consumeSegAux t a.length (a.drop (i + len))).1,
              (consumeSegAux t a.length (a.drop (i + len))).2) := by
          show (match sepSearch t a with
            | none => (([] : List Str), a)
            | some (i, len) =>
              (a.take i :: (consumeSegAux t a.length (a.drop (i + len))).1,
                (consumeSegAux t a.length (a.drop (i + len))).2)) =
            (a.take i :: (consumeSegAux t a.length (a.drop (i + len))).1,
              (consumeSegAux t a.length (a.drop (i + len))).2)
          rw [hs]
        rw [h1, consumeSegAux_fuel t ht (a.drop (i + len)).length (a.drop (i + len))
          a.length ((a.drop (i + len)).length + 1) le_rfl (by simp; omega) (by omega)]
      have hsplit : splitSegAux t ((a ++ b).length + 1) (a ++ b) =
          (a ++ b).take i :: splitSegAux t (a ++ b).length ((a ++ b).drop (i + len)) := by
        show (match sepSearch t (a ++ b) with
          | none => [a ++ b]
          | some (i, len) =>
            (a ++ b).take i :: splitSegAux t (a ++ b).length ((a ++ b).drop (i + len))) =
          (a ++ b).take i :: splitSegAux t (a ++ b).length ((a ++ b).drop (i + len))
        rw [hsa]
      show splitSegAux t ((a ++ b).length + 1) (a ++ b) = _
      rw [hsplit, htake, hdrop,
        splitSegAux_fuel t ht ((a.drop (i + len)) ++ b).length ((a.drop (i + len)) ++ b)
          (a ++ b).length (((a.drop (i + len)) ++ b).length + 1) le_rfl
          (by simp; omega) (by omega)]
      show a.take i :: splitBySegmentRegex t ((a.drop (i + len)) ++ b) = _
      rw [hih]
      show _ = (consumeSegAux t (a.length + 1) a).1 ++
        splitBySegmentRegex t ((consumeSegAux t (a.length + 1) a).2 ++ b)
      rw [hcons]
      simp [consumeCompleteSegments]

/-! ## The chunk loop against the buffered split -/

theorem iterChunksAux_eq_streamSteps (t : Nat) :
    ∀ (cs : List Str) (p : Str),
      iterChunksAux t cs p =
        (streamSteps t cs p).1 ++
          (if (streamSteps t cs p).2.isEmpty then [] else [(streamSteps t cs p).2])
  | [], p => by simp [iterChunksAux, streamSteps]
  | c :: cs, p => by
    simp only [iterChunksAux, streamSteps]
    rw [iterChunksAux_eq_streamSteps t cs (consumeCompleteSegments t (p ++ c)).2]
    simp

theorem split_eq_streamSteps (t : Nat) (ht : 1 ≤ t) :
    ∀ (cs : List Str) (p : Str), sepSearch t p = none →
      (∀ i, i < cs.length →
        boundaryBad t (p ++ ((cs.take (i + 1)).flatten)) ((cs.drop (i + 1)).flatten) = false) →
      splitBySegmentRegex t (p ++ cs.flatten) =
        (streamSteps t cs p).1 ++ [(streamSteps t cs p).2]
  | [], p, hp, _ => by
    simp only [List.flatten, List.append_nil, streamSteps]
    unfold splitBySegmentRegex
    simp [splitSegAux, hp]
  | c :: cs, p, hp, hg => by
    have hg0 : boundaryBad t (p ++ c) cs.flatten = false := by
      have := hg 0 (by simp)
      simpa using this
    have hassoc : p ++ (c :: cs).flatten = (p ++ c) ++ cs.flatten := by
      simp
    rw [hassoc]
    rw [split_append_consume t ht cs.flatten (p ++ c).length (p ++ c) le_rfl hg0]
    have hfix : sepSearch t (consumeCompleteSegments t (p ++ c)).2 = none := by
      unfold consumeCompleteSegments
      exact consumeSegAux_fix t ht (p ++ c).length (p ++ c) ((p ++ c).length + 1)
        le_rfl (by omega)
    have hg' : ∀ i, i < cs.length →
        boundaryBad t ((consumeCompleteSegments t (p ++ c)).2 ++ ((cs.take (i + 1)).flatten))
          ((cs.drop (i + 1)).flatten) = false := by
      intro i hi
      obtain ⟨m, hmle, hmeq⟩ := consumeSegAux_suffix t ((p ++ c).length + 1) (p ++ c)
      have hm2 : (consumeCompleteSegments t (p ++ c)).2 = (p ++ c).drop m := hmeq
      have hgz := hg (i + 1) (by simpa using hi)
      have hgz2 : boundaryBad t ((p ++ c) ++ ((cs.take (i + 1)).flatten))
          ((cs.drop (i + 1)).flatten) = false := by
        have he : p ++ (((c :: cs).take (i + 2)).flatten) =
            (p ++ c) ++ ((cs.take (i + 1)).flatten) := by
          simp
        rw [he] at hgz
        rw [show (c :: cs).drop (i + 2) = cs.drop (i + 1) from rfl] at hgz
        exact hgz
      have hshift := boundaryBad_drop t ht hgz2 m
      rw [List.drop_append_of_le_length hmle] at hshift
      rw [hm2]
      exact hshift
    rw [split_eq_streamSteps t ht cs (consumeCompleteSegments t (p ++ c)).2 hfix hg']
    simp only [streamSteps]
    simp

/-- C1, amended: the equivalence of streaming and buffered segmentation holds
whenever no separator run is split across a chunk boundary. The hypothesis
`boundaryBad = false` at every boundary says: no tail of the text delivered so
far is a greedy newline-unit run of at least `t` units that reaches the boundary
and is immediately continued by the upcoming text. Every chunking in which no
boundary falls strictly inside a separator run satisfies it (a bad boundary lies
strictly inside a maximal run of at least `t` newline units), and boundaries
inside dash separators need no condition at all, since an incomplete `-{8,}\r?\n`
match is never consumed early. Under this hypothesis the streaming splitter
yields exactly the buffered split of the concatenated text, except that a
trailing empty segment (produced by the buffered split after a separator that
ends the text) is omitted. The counterexample shows the condition cannot be
dropped. -/
theorem c1_unsplit_separator_runs_agree (t : Nat) (chunks : List Str) (ht : 1 ≤ t)
    (hgood : ∀ i, i < chunks.length → 1 ≤ i →
      boundaryBad t ((chunks.take i).flatten) ((chunks.drop i).flatten) = false) :
    iterateSegmentsFromTextChunks t chunks =
      if (splitBySegmentRegex t chunks.flatten).getLast? = some [] then
        (splitBySegmentRegex t chunks.flatten).dropLast
      else splitBySegmentRegex t chunks.flatten := by
  have hg : ∀ i, i < chunks.length →
      boundaryBad t (([] : Str) ++ ((chunks.take (i + 1)).flatten))
        ((chunks.drop (i + 1)).flatten) = false := by
    intro i hi
    rcases Nat.lt_or_ge (i + 1) chunks.length with hlt | hge
    · have := hgood (i + 1) hlt (by omega)
      simpa using this
    · have hd : chunks.drop (i + 1) = [] := List.drop_eq_nil_of_le hge
      rw [hd]
      simpa using boundaryBad_nil_right t _
  have hmain := split_eq_streamSteps t ht chunks [] (sepSearch_nil t ht) hg
  simp only [List.nil_append] at hmain
  have hiter := iterChunksAux_eq_streamSteps t chunks []
  rw [iterateSegmentsFromTextChunks, hiter, hmain]
  rcases hfin : (streamSteps t chunks []).2 with _ | ⟨x, xs⟩
  · simp [List.getLast?_concat, List.dropLast_concat]
  · simp [List.getLast?_concat, List.dropLast_concat]

theorem c1_unsplit_separator_runs_agree_witness :
    iterateSegmentsFromTextChunks 2 ["A\n".toList, "x".toList, "\n\nB".toList] =
      if (splitBySegmentRegex 2
            (["A\n".toList, "x".toList, "\n\nB".toList] : List Str).flatten).getLast? =
          some [] then
        (splitBySegmentRegex 2
          (["A\n".toList, "x".toList, "\n\nB".toList] : List Str).flatten).dropLast
      else splitBySegmentRegex 2 (["A\n".toList, "x".toList, "\n\nB".toList] : List Str).flatten :=
  c1_unsplit_separator_runs_agree 2 ["A\n".toList, "x".toList, "\n\nB".toList]
    (by decide) (by decide)

/-! ## A small backtracking regex interpreter with JavaScript semantics

The chapter-heading regexes of `createChapterRegexps` are transliterated into the
`RE` syntax below and executed by `reRun`, a continuation-passing backtracking
matcher implementing ECMAScript behaviour: ordered alternation, greedy
quantifiers with backtracking, `^`/`$` without the `m` flag, `\b`, lookahead and
negative lookahead, and capture groups (last write wins, non-participating groups
undefined). `fuel` only bounds recursion depth; the top-level entry points supply
more than any match of these patterns can use. -/

/-- Regex abstract syntax, close to the source patterns. -/
inductive RE where
  | eps
  | cls (p : Char → Bool)
  | lit (cs : Str)
  | liti (cs : Str)
  | seq (a b : RE)
  | alt (a b : RE)
  | opt (a : RE)
  | rep (a : RE) (lo : Nat) (hi : Option Nat)
  | grp (i : Nat) (a : RE)
  | la (a : RE)
  | nla (a : RE)
  | bol
  | eol
  | wordb

/-- ASCII lowercasing, as the `i` flag folds these patterns. -/
def lowerc (c : Char) : Char :=
  if 'A' ≤ c ∧ c ≤ 'Z' then Char.ofNat (c.toNat + 32) else c

/-- Literal `cs` matches in `s` at position `pos` (case-insensitively when `ci`). -/
def litAt (ci : Bool) (s : Str) : Nat → Str → Bool
  | _, [] => true
  | pos, c :: rest =>
    match s.get? pos with
    | some d => (if ci then lowerc d == lowerc c else d == c) && litAt ci s (pos + 1) rest
    | none => false

/-- `[a-zA-Z0-9_]`, the `\w` class deciding `\b`. -/
def isWordChar (c : Char) : Bool :=
  ('a' ≤ c && c ≤ 'z') || ('A' ≤ c && c ≤ 'Z') || ('0' ≤ c && c ≤ '9') || c == '_'

/-- Capture records: (group index, start, end), most recent first. -/
abbrev Caps := List (Nat × Nat × Nat)

/-- The backtracking matcher: match `r` in `s` at `pos`, then run the
continuation `k`; failure of `k` backtracks into `r`'s other choices. -/
def reRun (s : Str) : Nat → RE → Nat → Caps →
    (Nat → Caps → Option (Nat × Caps)) → Option (Nat × Caps)
  | 0, _, _, _, _ => none
  | fuel + 1, r, pos, caps, k =>
    match r with
    | .eps => k pos caps
    | .cls p =>
      match s.get? pos with
      | some c => if p c then k (pos + 1) caps else none
      | none => none
    | .lit cs => if litAt false s pos cs then k (pos + cs.length) caps else none
    | .liti cs => if litAt true s pos cs then k (pos + cs.length) caps else none
    | .seq a b => reRun s fuel a pos caps fun p c => reRun s fuel b p c k
    | .alt a b =>
      match reRun s fuel a pos caps k with
      | some res => some res
      | none => reRun s fuel b pos caps k
    | .opt a =>
      match reRun s fuel a pos caps k with
      | some res => some res
      | none => k pos caps
    | .rep a lo hi =>
      match lo, hi with
      | 0, some 0 => k pos caps
      | 0, _ =>
        match reRun s fuel a pos caps (fun p c =>
            if p == pos then none
            else reRun s fuel (.rep a 0 (hi.map (· - 1))) p c k) with
        | some res => some res
        | none => k pos caps
      | lo' + 1, _ =>
        reRun s fuel a pos caps fun p c =>
          reRun s fuel (.rep a lo' (hi.map (· - 1))) p c k
    | .grp i a => reRun s fuel a pos caps fun p c => k p ((i, pos, p) :: c)
    | .la a =>
      match reRun s fuel a pos caps (fun p c => some (p, c)) with
      | some _ => k pos caps
      | none => none
    | .nla a =>
      match reRun s fuel a pos caps (fun p c => some (p, c)) with
      | some _ => none
      | none => k pos caps
    | .bol => if pos == 0 then k pos caps else none
    | .eol => if pos == s.length then k pos caps else none
    | .wordb =>
      let before := match pos with
        | 0 => false
        | q + 1 => match s.get? q with | some c => isWordChar c | none => false
      let after := match s.get? pos with | some c => isWordChar c | none => false
      if before != after then k pos caps else none

/-- Match `re` at exactly position `q` of `s`: (end position, captures). -/
def reMatchAt (re : RE) (s : Str) (q : Nat) : Option (Nat × Caps) :=
  reRun s (4 * s.length + 256) re q [] fun p c => some (p, c)

/-- Scan for the leftmost match at position `q` or later. -/
def reScanFrom (re : RE) (s : Str) : Nat → Nat → Option (Nat × Nat × Caps)
  | 0, _ => none
  | fuel + 1, q =>
    match reMatchAt re s q with
    | some (e, caps) => some (q, e, caps)
    | none => if q < s.length then reScanFrom re s fuel (q + 1) else none

/-- Leftmost match of `re` anywhere in `s`. -/
def reSearch (re : RE) (s : Str) : Option (Nat × Nat × Caps) :=
  reScanFrom re s (s.length + 2) 0

/-- `regex.test(s)`. -/
def reTest (re : RE) (s : Str) : Bool :=
  (reSearch re s).isSome

/-- `s.slice(a, b)` for `a ≤ b`. -/
def slice (s : Str) (a b : Nat) : Str :=
  (s.drop a).take (b - a)

/-- The span recorded for capture group `i`, if it participated in the match. -/
def capLookup (i : Nat) : Caps → Option (Nat × Nat)
  | [] => none
  | (j, a, b) :: rest => if j == i then some (a, b) else capLookup i rest

/-- The capture-group strings 1..ng of a match, `none` for a group that did not
participate (JavaScript `undefined`). -/
def capStrings (s : Str) (caps : Caps) (ng : Nat) : List (Option Str) :=
  (List.range ng).map fun j => (capLookup (j + 1) caps).map fun p => slice s p.1 p.2

/-- Loop of the ECMAScript SplitMatcher: `p` is the start of the current piece,
`q` the scan position. Pieces are emitted as `some`, interleaved with the capture
groups of each separator match. -/
def jsSplitCapsAux (re : RE) (ng : Nat) (s : Str) : Nat → Nat → Nat → List (Option Str)
  | 0, p, _ => [some (s.drop p)]
  | fuel + 1, p, q =>
    if q < s.length then
      match reMatchAt re s q with
      | none => jsSplitCapsAux re ng s fuel p (q + 1)
      | some (e, caps) =>
        if e == p then jsSplitCapsAux re ng s fuel p (q + 1)
        else some (slice s p q) :: (capStrings s caps ng ++ jsSplitCapsAux re ng s fuel e e)
    else [some (s.drop p)]

/-- `s.split(re)` with capture groups, ECMAScript semantics (including the
empty-input special case). -/
def jsSplitCaps (re : RE) (ng : Nat) (s : Str) : List (Option Str) :=
  if s.isEmpty then
    if (reMatchAt re s 0).isSome then [] else [some []]
  else jsSplitCapsAux re ng s (s.length + 2) 0 0

/-! ## The chapter-heading regexes of `createChapterRegexps(language)` -/

/-- `[0-9]`. -/
def isDigitCh (c : Char) : Bool :=
  '0' ≤ c && c ≤ '9'

/-- `[IVXLCDM]` under the `i` flag. -/
def isRomanCh (c : Char) : Bool :=
  "IVXLCDMivxlcdm".toList.contains c

/-- Shorthand for a case-sensitive literal. -/
def reStr (s : String) : RE :=
  .lit s.toList

/-- Shorthand for a case-insensitive literal. -/
def reStrI (s : String) : RE :=
  .liti s.toList

/-- Ordered alternation of a nonempty list. -/
def altList : List RE → RE
  | [] => .nla .eps
  | [r] => r
  | r :: rest => .alt r (altList rest)

/-- `numberPattern` = `(\d+|(?:[IVXLCDM]{2,}|V|X|L|C|D|M)\b)`, capture group `g`. -/
def numberPat (g : Nat) : RE :=
  .grp g (.alt (.rep (.cls isDigitCh) 1 none)
    (.seq (.alt (.rep (.cls isRomanCh) 2 none)
        (altList [reStrI "V", reStrI "X", reStrI "L", reStrI "C", reStrI "D", reStrI "M"]))
      .wordb))

/-- `dotNumberPattern` = `\.\d{1,4}`. -/
def dotNumberPat : RE :=
  .seq (reStr ".") (.rep (.cls isDigitCh) 1 (some 4))

/-- `[:.\-–—]`. -/
def isTitlePunct (c : Char) : Bool :=
  c == ':' || c == '.' || c == '-' || c.toNat == 0x2013 || c.toNat == 0x2014

/-- The optional trailing title `(?:[:.\-–—]?\s*[^\n]{0,50})?`. -/
def titlePat : RE :=
  .opt (.seq (.opt (.cls isTitlePunct)) (.seq (.rep (.cls jsWs) 0 none)
    (.rep (.cls fun c => c != '\n') 0 (some 50))))

def chapterKeywords : List String :=
  ["Chapter", "Part", "Section", "Book", "Volume", "Act"]

def prefaceKeywords : List String :=
  ["Prologue", "Epilogue", "Introduction", "Foreword", "Preface", "Afterword"]

/-- One `normalChapterPattern` alternative:
`k\s*(?:numberPattern|dotNumberPattern)(?:[:.\-–—]?\s*[^\n]{0,50})?`. -/
def normalChapterPat (k : String) (g : Nat) : RE :=
  .seq (reStrI k) (.seq (.rep (.cls jsWs) 0 none)
    (.seq (.alt (numberPat g) dotNumberPat) titlePat))

/-- One `prefacePattern` alternative: `k(?:[:.\-–—]?\s*[^\n]{0,50})?`. -/
def prefacePat (k : String) : RE :=
  .seq (reStrI k) titlePat

/-- The combined Latin-script regex
`(?:^|\n|\s)(?:normalChapterPattern|prefacePattern)(?=\s|$)` (flags `gi`); the
capture groups 1..6 are the per-keyword number groups in textual order. -/
def englishChapterRe : RE :=
  .seq (.alt .bol (.alt (.cls fun c => c == '\n') (.cls jsWs)))
    (.seq (altList ((chapterKeywords.enum.map fun p => normalChapterPat p.2 (p.1 + 1)) ++
        prefaceKeywords.map prefacePat))
      (.la (.alt (.cls jsWs) .eol)))

/-- `[零〇一二三四五六七八九十0-9]`. -/
def zhNumFirst (c : Char) : Bool :=
  "零〇一二三四五六七八九十".toList.contains c || isDigitCh c

/-- `[零〇一二三四五六七八九十百千万0-9]`. -/
def zhNumRest (c : Char) : Bool :=
  "零〇一二三四五六七八九十百千万".toList.contains c || isDigitCh c

/-- `[章卷节回讲篇封本册部话]`. -/
def zhUnit (c : Char) : Bool :=
  "章卷节回讲篇封本册部话".toList.contains c

/-- `[：:、 　\(\)0-9]`. -/
def zhPunct1 (c : Char) : Bool :=
  "：:、 　()".toList.contains c || isDigitCh c

/-- `[^\n-]`. -/
def notNlDash (c : Char) : Bool :=
  c != '\n' && c != '-'

/-- `\S`. -/
def notWsCh (c : Char) : Bool :=
  !jsWs c

/-- First alternative of the first zh regex:
`第[零〇一二三四五六七八九十0-9][零〇一二三四五六七八九十百千万0-9]*(?:[章卷节回讲篇封本册部话])(?:[：:、 　\(\)0-9]*[^\n-]{0,24})(?!\S)`. -/
def zhAlt1 : RE :=
  .seq (reStr "第") (.seq (.cls zhNumFirst) (.seq (.rep (.cls zhNumRest) 0 none)
    (.seq (.cls zhUnit)
      (.seq (.seq (.rep (.cls zhPunct1) 0 none) (.rep (.cls notNlDash) 0 (some 24)))
        (.nla (.cls notWsCh))))))

/-- Second alternative:
`(?:楔子|前言|简介|引言|序言|序章|总论|概论|后记)(?:[：: 　][^\n-]{0,24})?(?!\S)`. -/
def zhAlt2 : RE :=
  .seq (altList ((["楔子", "前言", "简介", "引言", "序言", "序章", "总论", "概论",
      "后记"] : List String).map reStr))
    (.seq (.opt (.seq (.cls fun c => "：: 　".toList.contains c)
        (.rep (.cls notNlDash) 0 (some 24))))
      (.nla (.cls notWsCh)))

/-- Third alternative: `chapter[\s.]*[0-9]+(?:[：:. 　]+[^\n-]{0,50})?(?!\S)`. -/
def zhAlt3 : RE :=
  .seq (reStrI "chapter") (.seq (.rep (.cls fun c => jsWs c || c == '.') 0 none)
    (.seq (.rep (.cls isDigitCh) 1 none)
      (.seq (.opt (.seq (.rep (.cls fun c => "：:. 　".toList.contains c) 1 none)
          (.rep (.cls notNlDash) 0 (some 50))))
        (.nla (.cls notWsCh)))))

/-- The first zh regex: `(?:^|\n)\s*(alt1|alt2|alt3)` (flags `gui`). -/
def zhChapterRe1 : RE :=
  .seq (.alt .bol (.cls fun c => c == '\n'))
    (.seq (.rep (.cls jsWs) 0 none) (.grp 1 (altList [zhAlt1, zhAlt2, zhAlt3])))

/-- The second, looser zh regex: `(?:^|\n)\s*(` then
`[一二三四五六七八九十][零〇一二三四五六七八九十百千万]?[：:、 　][^\n-]{0,24}(?=\n|$)`
`|[0-9]+[^\n]{0,16}(?=\n|$))` (flags `gu`). -/
def zhChapterRe2 : RE :=
  .seq (.alt .bol (.cls fun c => c == '\n'))
    (.seq (.rep (.cls jsWs) 0 none)
      (.grp 1 (.alt
        (.seq (.cls fun c => "一二三四五六七八九十".toList.contains c)
          (.seq (.opt (.cls fun c => "零〇一二三四五六七八九十百千万".toList.contains c))
            (.seq (.cls fun c => "：:、 　".toList.contains c)
              (.seq (.rep (.cls notNlDash) 0 (some 24))
                (.la (.alt (.cls fun c => c == '\n') .eol))))))
        (.seq (.rep (.cls isDigitCh) 1 none)
          (.seq (.rep (.cls fun c => c != '\n') 0 (some 16))
            (.la (.alt (.cls fun c => c == '\n') .eol)))))))

/-- `createChapterRegexps(language)`: the ordered regex list, each with its number
of capture groups. -/
def createChapterRegexps (language : String) : List (RE × Nat) :=
  if language = "zh" then [(zhChapterRe1, 1), (zhChapterRe2, 1)]
  else [(englishChapterRe, 6)]

/-- The zh volume test `第[零〇一二三四五六七八九十百千万0-9]+(卷|本|册|部)`. -/
def zhVolumeRe : RE :=
  .seq (reStr "第") (.seq (.rep (.cls zhNumRest) 1 none)
    (.grp 1 (altList ((["卷", "本", "册", "部"] : List String).map reStr))))

/-- The Latin volume test `\b(Part|Volume|Book)\b` (flag `i`). -/
def enVolumeRe : RE :=
  .seq .wordb (.seq (.grp 1 (altList [reStrI "Part", reStrI "Volume", reStrI "Book"])) .wordb)

/-! ## String helpers of the extraction pipeline -/

/-- One global single-character replace; `escapeXml` chains five of these. -/
def replaceAllCh (c : Char) (r : Str) : Str → Str
  | [] => []
  | x :: xs => if x = c then r ++ replaceAllCh c r xs else x :: replaceAllCh c r xs

/-- escapeXml from the source: `&`, `<`, `>`, `"`, `'` replaced in that order (the
`!str` early return agrees with the chain on the empty string). -/
def escapeXml (s : Str) : Str :=
  replaceAllCh '\'' "&apos;".toList
    (replaceAllCh '"' "&quot;".toList
      (replaceAllCh '>' "&gt;".toList
        (replaceAllCh '<' "&lt;".toList
          (replaceAllCh '&' "&amp;".toList s))))

/-- After a `<!--`, the text following the earliest `-->` reachable without
crossing a newline (the lazy `.*?` of `/<!--.*?-->/` cannot match `\n`). -/
def commentClose : Str → Option Str
  | '-' :: '-' :: '>' :: rest => some rest
  | '\n' :: _ => none
  | _ :: rest => commentClose rest
  | [] => none

/-- `segment.replace(/<!--.*?-->/g, '')`. -/
def stripCommentsAux : Nat → Str → Str
  | 0, s => s
  | fuel + 1, s =>
    match s with
    | '<' :: '!' :: '-' :: '-' :: rest =>
      match commentClose rest with
      | some after => stripCommentsAux fuel after
      | none => '<' :: stripCommentsAux fuel ('!' :: '-' :: '-' :: rest)
    | c :: rest => c :: stripCommentsAux fuel rest
    | [] => []

def stripComments (s : Str) : Str :=
  stripCommentsAux (s.length + 1) s

/-- Greedy run of `\n` characters at the head. -/
def nlOnlyRun : Str → Nat
  | '\n' :: rest => nlOnlyRun rest + 1
  | _ => 0

/-- `s.split(/\n+/)`. -/
def splitNlAux : Nat → Str → List Str
  | 0, s => [s]
  | fuel + 1, s =>
    let piece := s.takeWhile fun c => c != '\n'
    let rest := s.drop piece.length
    match rest with
    | [] => [piece]
    | _ => piece :: splitNlAux fuel (rest.drop (nlOnlyRun rest))

def splitNlRuns (s : Str) : List Str :=
  splitNlAux (s.length + 1) s

/-- Greedy run of `_` characters at the head. -/
def underscoreRun : Str → Nat
  | '_' :: rest => underscoreRun rest + 1
  | _ => 0

/-- The global replace of `-{8,}|_{8,}` by `'\n'` in formatSegment: a run of at
least eight dashes or at least eight underscores becomes one newline. -/
def dashUnderscoreRepl : Nat → Str → Str
  | 0, s => s
  | fuel + 1, s =>
    match s with
    | [] => []
    | c :: rest =>
      let d := dashRun (c :: rest)
      if 8 ≤ d then '\n' :: dashUnderscoreRepl fuel ((c :: rest).drop d)
      else
        let u := underscoreRun (c :: rest)
        if 8 ≤ u then '\n' :: dashUnderscoreRepl fuel ((c :: rest).drop u)
        else c :: dashUnderscoreRepl fuel rest

/-- formatSegment from the source: escape, replace long dash/underscore rules by
newlines, split on newline runs, trim each line, drop blank lines, and join the
rest with `</p><p>`. -/
def formatSegment (segment : Str) : Str :=
  let e := escapeXml segment
  let r := dashUnderscoreRepl (e.length + 1) e
  let parts := (splitNlRuns r).map jsTrim
  List.intercalate "</p><p>".toList (parts.filter fun l => !l.isEmpty)

/-! ## Heading-match selection shared by extraction and probing -/

/-- isGoodMatches from the source (default `maxLength` 100000). -/
def isGoodMatches (ms : List (Option Str)) : Bool :=
  let meaningful := ms.filter fun p =>
    match p with
    | some v => !(jsTrim v).isEmpty
    | none => false
  if meaningful.length ≤ 1 then false
  else !meaningful.any fun p =>
    match p with
    | some v => 100000 < v.length
    | none => false

/-- The reduce loop of joinAroundUndefined: `first` marks index 0, `prev` whether
the previous entry was defined; `acc` is kept reversed. An undefined entry between
two defined neighbours appends the next entry's text to the last accumulated
string; a defined entry is kept only when it is first or follows a defined one. -/
def joinAux : Bool → Bool → List (Option Str) → List Str → List Str
  | _, _, [], acc => acc.reverse
  | first, prev, curr :: rest, acc =>
    match curr with
    | none =>
      if !first && prev then
        match rest, acc with
        | some v :: _, a :: tl => joinAux false false rest ((a ++ v) :: tl)
        | _, _ => joinAux false false rest acc
      else joinAux false false rest acc
    | some v =>
      if first || prev then joinAux false true rest (v :: acc)
      else joinAux false true rest acc

def joinAroundUndefined (arr : List (Option Str)) : List Str :=
  joinAux true false arr []

/-- The match computation `extractChaptersFromSegment` and
`probeChapterCountFromSegment` both perform: try each chapter regex in priority
order, accept the first whose split is good. -/
def segMatchesGo (trimmed : Str) : List (RE × Nat) → List Str
  | [] => []
  | (re, ng) :: rest =>
    let tryMatches := jsSplitCaps re ng trimmed
    if isGoodMatches tryMatches then joinAroundUndefined tryMatches
    else segMatchesGo trimmed rest

def segmentMatches (language : String) (trimmed : Str) : List Str :=
  segMatchesGo trimmed (createChapterRegexps language)

/-! ## Chapter extraction -/

structure Metadata where
  bookTitle : Str
  author : Str
  language : String
  identifier : Str

structure Chapter where
  title : Str
  content : Str
  isVolume : Bool
deriving DecidableEq, Repr

structure ExtractChapterOptions where
  linesBetweenSegments : Nat
  fallbackParagraphsPerChapter : Nat

/-- Unicode punctuation `\p{P}` over the characters this development evaluates:
the ASCII characters of general category P, and common CJK punctuation. -/
def isPunctP (c : Char) : Bool :=
  "!\"#%&'()*,-./:;?@[\\]_\x7b\x7d".toList.contains c ||
  "、。〈〉《》「」『』【】〔〕！（），．：；？·‘’“”…‐–—―".toList.contains c

/-- One chapter of the `j`-loop: raw (unescaped) title inside the `<h1>`/`<h2>`
wrapper, escaped title in the `title` field, escaped and wrapped body. -/
def mkHeadingChapter (language : String) (title content : Str) : Chapter :=
  let isVol := if language = "zh" then reTest zhVolumeRe title else reTest enVolumeRe title
  let headTitle :=
    if isVol then "<h1>".toList ++ title ++ "</h1>".toList
    else "<h2>".toList ++ title ++ "</h2>".toList
  { title := escapeXml title
    content := headTitle ++ "<p>".toList ++ formatSegment content ++ "</p>".toList
    isVolume := isVol }

/-- The `for (let j = 1; j < matches.length; j += 2)` loop, applied to
`matches.drop 1`: entries are consumed in (title, content) pairs, a missing
content defaulting to the empty string. -/
def chapterPairs (language : String) : List Str → List Chapter
  | [] => []
  | [t] => [mkHeadingChapter language (jsTrim t) []]
  | t :: c :: rest =>
    mkHeadingChapter language (jsTrim t) (jsTrim c) :: chapterPairs language rest

def natStr (n : Nat) : Str :=
  (toString n).toList

/-- The fallback loop: paragraphs grouped `f` at a time, auto-numbered from
`offset + k + 1` where `k` counts the chapters built so far. -/
def fallbackChaptersAux (offset f : Nat) : Nat → Nat → List Str → List Chapter
  | _, _, [] => []
  | 0, _, _ => []
  | fuel + 1, k, ps =>
    let fs := formatSegment (List.intercalate ['\n'] (ps.take f))
    let title := natStr (offset + k + 1)
    { title := title
      content := "<h2>".toList ++ title ++ "</h2><p>".toList ++ fs ++ "</p>".toList
      isVolume := false }
      :: fallbackChaptersAux offset f fuel (k + 1) (ps.drop f)

/-- extractChaptersFromSegment from the source. -/
def extractChaptersFromSegment (segment : Str) (md : Metadata)
    (opt : ExtractChapterOptions) (chapterOffset : Nat) : List Chapter :=
  let trimmedSegment := jsTrim (stripComments segment)
  if trimmedSegment.isEmpty then []
  else
    let ms := segmentMatches md.language trimmedSegment
    if ms.length = 0 ∧ 0 < opt.fallbackParagraphsPerChapter then
      let paragraphs := splitNlRuns trimmedSegment
      fallbackChaptersAux chapterOffset opt.fallbackParagraphsPerChapter
        (paragraphs.length + 1) 0 paragraphs
    else
      let segmentChapters := chapterPairs md.language (ms.drop 1)
      match ms with
      | [] => segmentChapters
      | m0 :: _ =>
        if !m0.isEmpty && !(jsTrim m0).isEmpty then
          let initialContent := jsTrim m0
          let firstLine := jsTrim (initialContent.takeWhile fun c => c != '\n')
          let word0 :=
            jsTrim (initialContent.takeWhile fun c => !(c == '\n' || jsWs c || isPunctP c))
          let segTitle0 := if 16 < firstLine.length then word0 else firstLine
          let segTitle := if segTitle0.isEmpty then initialContent.take 16 else segTitle0
          { title := escapeXml segTitle
            content := "<h3></h3><p>".toList ++ formatSegment initialContent ++ "</p>".toList
            isVolume := false } :: segmentChapters
        else segmentChapters

/-- probeChapterCountFromSegment from the source. -/
def probeChapterCountFromSegment (segment : Str) (md : Metadata)
    (opt : ExtractChapterOptions) : Nat :=
  let trimmedSegment := jsTrim (stripComments segment)
  if trimmedSegment.isEmpty then 0
  else
    let ms := segmentMatches md.language trimmedSegment
    if ms.length = 0 ∧ 0 < opt.fallbackParagraphsPerChapter then
      let paragraphs := splitNlRuns trimmedSegment
      (paragraphs.length + opt.fallbackParagraphsPerChapter - 1) /
        opt.fallbackParagraphsPerChapter
    else
      let base := ms.length / 2
      match ms with
      | [] => base
      | m0 :: _ => if !m0.isEmpty && !(jsTrim m0).isEmpty then base + 1 else base

/-- Segment loop of extractChapters, accumulating the global chapter offset. -/
def extractChaptersGo (md : Metadata) (opt : ExtractChapterOptions) :
    List Str → List Chapter → List Chapter
  | [], acc => acc
  | seg :: rest, acc =>
    extractChaptersGo md opt rest (acc ++ extractChaptersFromSegment seg md opt acc.length)

/-- extractChapters from the source. -/
def extractChapters (txtContent : Str) (md : Metadata) (opt : ExtractChapterOptions) :
    List Chapter :=
  extractChaptersGo md opt (splitBySegmentRegex opt.linesBetweenSegments txtContent) []

/-- Segment loop of probeChapterCount, returning early once the count exceeds 1. -/
def probeGo (md : Metadata) (opt : ExtractChapterOptions) : List Str → Nat → Nat
  | [], c => c
  | seg :: rest, c =>
    let c' := c + probeChapterCountFromSegment seg md opt
    if 1 < c' then c' else probeGo md opt rest c'

/-- probeChapterCount from the source. -/
def probeChapterCount (txtContent : Str) (md : Metadata) (opt : ExtractChapterOptions) :
    Nat :=
  probeGo md opt (splitBySegmentRegex opt.linesBetweenSegments txtContent) 0

/-- The chapter-selection ladder of `convertSmallFile` (lines 93-112): a full pass
at `linesBetweenSegments = 8`; zero chapters is a fatal error; at most one chapter
triggers a count-only probe at 7 and one final full pass at 7 (probe > 1) or 6,
accepted unconditionally. -/
def selectChapters (md : Metadata) (txtContent : Str) : Except String (List Chapter) :=
  let chapters := extractChapters txtContent md ⟨8, 100⟩
  if chapters.length = 0 then .error "No chapters detected."
  else if chapters.length ≤ 1 then
    let probe := probeChapterCount txtContent md ⟨7, 100⟩
    .ok (extractChapters txtContent md ⟨if 1 < probe then 7 else 6, 100⟩)
  else .ok chapters

/-- The text path of `convertSmallFile`: the decoded content is trimmed before
chapter extraction. -/
def convertSmallText (md : Metadata) (decoded : Str) : Except String (List Chapter) :=
  selectChapters md (jsTrim decoded)

/-! ## Example metadata (only the language field affects extraction) -/

/-- Metadata as conversion would build it for a Latin-script text. -/
def enMetadata : Metadata :=
  { bookTitle := [], author := [], language := "en", identifier := [] }

/-- Metadata as conversion would build it for a Chinese text. -/
def zhMetadata : Metadata :=
  { bookTitle := [], author := [], language := "zh", identifier := [] }

/-! ## C2: the probe ladder -/

/-- C2, counterexample. The claim quantifies over every input text and asserts
that whenever the first pass yields fewer than two chapters, a probe runs and a
final chapter list is produced by one more full extraction. On the empty text the
first pass yields zero chapters and `convertSmallFile` instead aborts with the
"No chapters detected." error: no final chapter list exists at all. -/
theorem c2_zero_chapters_counterexample :
    (extractChapters ([] : Str) enMetadata ⟨8, 100⟩).length < 2 ∧
    selectChapters enMetadata [] = Except.error "No chapters detected." ∧
    selectChapters enMetadata [] ≠
      Except.ok (extractChapters ([] : Str) enMetadata
        ⟨if 1 < probeChapterCount ([] : Str) enMetadata ⟨7, 100⟩ then 7 else 6, 100⟩) := by
  have herr : selectChapters enMetadata [] = Except.error "No chapters detected." := by rfl
  refine ⟨by decide, herr, ?_⟩
  rw [herr]
  intro h
  exact Except.noConfusion h

/-- C2, amended: the ladder holds as claimed for every text whose first full
extraction (threshold 8) yields at least one chapter; a first pass with zero
chapters aborts with an error instead of probing. With at least two chapters the
first pass is accepted as-is; with exactly one, a count-only probe runs at 7 and
the final list comes from exactly one more full extraction, at 7 when the probe
count exceeds 1 and at 6 otherwise, accepted without any further retry. -/
theorem c2_probe_ladder (md : Metadata) (text : Str)
    (h : 1 ≤ (extractChapters text md ⟨8, 100⟩).length) :
    selectChapters md text =
      Except.ok (if 2 ≤ (extractChapters text md ⟨8, 100⟩).length
        then extractChapters text md ⟨8, 100⟩
        else extractChapters text md
          ⟨if 1 < probeChapterCount text md ⟨7, 100⟩ then 7 else 6, 100⟩) := by
  unfold selectChapters
  rcases Nat.lt_or_ge (extractChapters text md ⟨8, 100⟩).length 2 with h2 | h2
  · have h1 : (extractChapters text md ⟨8, 100⟩).length = 1 := by omega
    simp [h1]
  · have h0 : (extractChapters text md ⟨8, 100⟩).length ≠ 0 := by omega
    have h1 : ¬(extractChapters text md ⟨8, 100⟩).length ≤ 1 := by omega
    simp [h0, h1, h2]

theorem c2_probe_ladder_witness :
    selectChapters enMetadata "hello".toList =
      Except.ok (if 2 ≤ (extractChapters "hello".toList enMetadata ⟨8, 100⟩).length
        then extractChapters "hello".toList enMetadata ⟨8, 100⟩
        else extractChapters "hello".toList enMetadata
          ⟨if 1 < probeChapterCount "hello".toList enMetadata ⟨7, 100⟩ then 7 else 6, 100⟩) :=
  c2_probe_ladder enMetadata "hello".toList (by decide)

/-! ## C3: escaping of chapter title and content -/

/-- The escaping property the claim asserts of generated text: no raw `<`, `>`,
`"` or `'`, and every `&` begins one of the five XML entities. -/
def xmlEscapedFrag : Str → Bool
  | [] => true
  | c :: rest =>
    if c = '&' then
      ((["amp;", "lt;", "gt;", "quot;", "apos;"] : List String).any fun t =>
          t.toList.isPrefixOf rest) && xmlEscapedFrag rest
    else (c != '<' && c != '>' && c != '"' && c != '\'') && xmlEscapedFrag rest

/-- C3, failing-input evaluation. For the zh segment `"第1章: A&B\n正文"` the
extractor's single chapter has its `title` field XML-escaped, but the `content`
embeds the matched heading text raw inside the `<h2>` wrapper: the inner text
`第1章: A&B` keeps an unescaped `&` (and could equally keep `<`), so an XML parser
rejects the chapter document. The claim (and the spec) say all five disallowed
characters are escaped in the content; the escaped title next to the raw heading
shows the escaping of the heading was simply missed. -/
theorem c3_heading_in_content_unescaped :
    extractChaptersFromSegment "第1章: A&B\n正文".toList zhMetadata ⟨8, 100⟩ 0 =
      [{ title := "第1章: A&amp;B".toList,
         content := "<h2>第1章: A&B</h2><p>正文</p>".toList,
         isVolume := false }] ∧
    xmlEscapedFrag "第1章: A&amp;B".toList = true ∧
    xmlEscapedFrag "第1章: A&B".toList = false := by
  refine ⟨by rfl, by decide, by decide⟩

/-! ## C4: empty chapter list on success -/

/-- C4, failing-input evaluation. For the Latin text
`"Book 1\nx\nVolume 1\n\n\n\n\n\nBook 1\nx\nx"` the first pass (threshold 8)
yields exactly one chapter, the probe at 7 reports 1 (not more than one), and the
accepted final pass at threshold 6 yields zero chapters: conversion succeeds with an empty chapter
list (`chapterCount = 0`), contradicting the claim that the chapter list is never
empty on success. (The companion fact shows the whitespace-only half of the claim
does hold: such input fails with the "No chapters detected." error.) -/
theorem c4_retry_pass_succeeds_empty :
    convertSmallText enMetadata "Book 1\nx\nVolume 1\n\n\n\n\n\nBook 1\nx\nx".toList =
      Except.ok ([] : List Chapter) ∧
    (extractChapters (jsTrim "Book 1\nx\nVolume 1\n\n\n\n\n\nBook 1\nx\nx".toList)
        enMetadata ⟨8, 100⟩).length = 1 ∧
    probeChapterCount (jsTrim "Book 1\nx\nVolume 1\n\n\n\n\n\nBook 1\nx\nx".toList)
        enMetadata ⟨7, 100⟩ = 1 ∧
    convertSmallText enMetadata "  \n \t ".toList = Except.error "No chapters detected." := by
  refine ⟨by rfl, by decide, by decide, by rfl⟩

/-! ## C6: probe count equals extraction count -/

theorem chapterPairs_length (lang : String) :
    ∀ l : List Str, (chapterPairs lang l).length = (l.length + 1) / 2
  | [] => by simp [chapterPairs]
  | [t] => by simp [chapterPairs]
  | t :: c :: rest => by
    have ih := chapterPairs_length lang rest
    simp only [chapterPairs, List.length_cons, ih]
    omega

theorem fallbackChaptersAux_length (offset f : Nat) (hf : 1 ≤ f) :
    ∀ fuel k ps, List.length ps ≤ fuel →
      (fallbackChaptersAux offset f fuel k ps).length = (ps.length + f - 1) / f := by
  intro fuel
  induction fuel with
  | zero =>
    intro k ps hps
    have hnil : ps = [] := List.eq_nil_of_length_eq_zero (Nat.le_zero.mp hps)
    subst hnil
    have h0 : (f - 1) / f = 0 := Nat.div_eq_of_lt (by omega)
    simp [fallbackChaptersAux, h0]
  | succ n ih =>
    intro k ps hps
    cases ps with
    | nil =>
      have h0 : (f - 1) / f = 0 := Nat.div_eq_of_lt (by omega)
      simp [fallbackChaptersAux, h0]
    | cons p rest =>
      have hlen : (List.drop f (p :: rest)).length ≤ n := by
        simp only [List.length_drop, List.length_cons] at hps ⊢
        omega
      simp only [fallbackChaptersAux, List.length_cons, ih _ _ hlen, List.length_drop,
        List.length_cons]
      rcases le_or_lt (rest.length + 1) f with hle | hlt
      · have h0 : rest.length + 1 - f = 0 := by omega
        rw [h0]
        have hz : (0 + f - 1) / f = 0 := Nat.div_eq_of_lt (by omega)
        have hone : (rest.length + 1 + f - 1) / f = 1 :=
          Nat.div_eq_of_lt_le (by omega) (by omega)
        rw [hz, hone]
      · have heq : rest.length + 1 + f - 1 = (rest.length + 1 - f + f - 1) + f := by omega
        rw [heq, Nat.add_div_right _ (by omega)]

/-- The per-segment equality: the count-only probe returns exactly the length of
the chapter list the full extractor builds (any chapter offset). -/
theorem probeSeg_eq_extractSeg_length (seg : Str) (md : Metadata)
    (opt : ExtractChapterOptions) (hf : 0 < opt.fallbackParagraphsPerChapter) (off : Nat) :
    probeChapterCountFromSegment seg md opt =
      (extractChaptersFromSegment seg md opt off).length := by
  unfold probeChapterCountFromSegment extractChaptersFromSegment
  by_cases h0 : (jsTrim (stripComments seg)).isEmpty = true
  · simp [h0]
  · simp only [h0, if_false]
    by_cases hm : (segmentMatches md.language (jsTrim (stripComments seg))).length = 0 ∧
        0 < opt.fallbackParagraphsPerChapter
    · rw [if_pos hm, if_pos hm]
      exact (fallbackChaptersAux_length off opt.fallbackParagraphsPerChapter hf _ 0 _
        (by omega)).symm
    · rw [if_neg hm, if_neg hm]
      rcases hms : segmentMatches md.language (jsTrim (stripComments seg)) with _ | ⟨m0, rest⟩
      · simp [chapterPairs]
      · simp only [List.length_cons, List.drop_succ_cons, List.drop_zero]
        cases hcond : (!m0.isEmpty && !(jsTrim m0).isEmpty) <;>
          simp [chapterPairs_length]

theorem extractChaptersGo_length (md : Metadata) (opt : ExtractChapterOptions)
    (hf : 0 < opt.fallbackParagraphsPerChapter) :
    ∀ (segs : List Str) (acc : List Chapter),
      (extractChaptersGo md opt segs acc).length =
        acc.length + (segs.map fun s => probeChapterCountFromSegment s md opt).sum := by
  intro segs
  induction segs with
  | nil => intro acc; simp [extractChaptersGo]
  | cons seg rest ih =>
    intro acc
    simp only [extractChaptersGo, ih, List.length_append, List.map_cons, List.sum_cons]
    rw [← probeSeg_eq_extractSeg_length seg md opt hf acc.length]
    omega

theorem probeGo_gt_one (md : Metadata) (opt : ExtractChapterOptions) :
    ∀ (segs : List Str) (c : Nat),
      (1 < probeGo md opt segs c ↔
        1 < c + (segs.map fun s => probeChapterCountFromSegment s md opt).sum) := by
  intro segs
  induction segs with
  | nil => intro c; simp [probeGo]
  | cons seg rest ih =>
    intro c
    simp only [probeGo, List.map_cons, List.sum_cons]
    by_cases h : 1 < c + probeChapterCountFromSegment seg md opt
    · rw [if_pos h]
      omega
    · rw [if_neg h, ih]
      omega

/-- C6: with a positive fallback paragraph count, `probeChapterCountFromSegment`
returns exactly the length of the list `extractChaptersFromSegment` produces on
the same inputs (whatever the chapter offset), and consequently the top-level
count-only probe reports a value greater than 1 exactly when full extraction at
the same options yields more than one chapter. -/
theorem c6_probe_matches_extraction (md : Metadata) (opt : ExtractChapterOptions)
    (hf : 0 < opt.fallbackParagraphsPerChapter) :
    (∀ seg off, probeChapterCountFromSegment seg md opt =
      (extractChaptersFromSegment seg md opt off).length) ∧
    (∀ text, 1 < probeChapterCount text md opt ↔
      1 < (extractChapters text md opt).length) := by
  constructor
  · intro seg off
    exact probeSeg_eq_extractSeg_length seg md opt hf off
  · intro text
    unfold probeChapterCount extractChapters
    rw [probeGo_gt_one, extractChaptersGo_length md opt hf]
    simp

theorem c6_probe_matches_extraction_witness :
    probeChapterCountFromSegment "hello".toList enMetadata ⟨8, 100⟩ =
      (extractChaptersFromSegment "hello".toList enMetadata ⟨8, 100⟩ 0).length :=
  (c6_probe_matches_extraction enMetadata ⟨8, 100⟩ (by decide)).1 "hello".toList 0

/-! ## C5: the toc.ncx navMap and the content.opf spine

The navPoint loop of `createEpub` (lines 699-721) emits, per chapter, an opening
`<navPoint id="navPoint-chapterN" playOrder="N">…` fragment and `</navPoint>`
closers, keeping an `isNested` flag for an open volume navPoint. `NavTok` records
exactly the emitted fragments; `navTokensAux` is the loop, one constructor per
`navPoints +=` statement. -/

inductive NavTok where
  | openTag (i : Nat)
  | closeTag
deriving DecidableEq, Repr

/-- The navPoint loop: a volume first closes an already-open volume navPoint,
then opens its own and leaves it open; a non-volume chapter opens and closes
immediately; after the loop an open volume navPoint is closed. -/
def navTokensAux : List Chapter → Nat → Bool → List NavTok
  | [], _, isNested => if isNested then [NavTok.closeTag] else []
  | ch :: rest, i, isNested =>
    if ch.isVolume then
      (if isNested then [NavTok.closeTag] else []) ++
        NavTok.openTag i :: navTokensAux rest (i + 1) true
    else
      NavTok.openTag i :: NavTok.closeTag :: navTokensAux rest (i + 1) isNested

def navTokens (chapters : List Chapter) : List NavTok :=
  navTokensAux chapters 0 false

/-- Balanced nesting with depth capped at `2`: `navDepthOk toks 0` says every
close matches an open, the final depth is zero, and no open ever exceeds depth 2. -/
def navDepthOk : List NavTok → Nat → Bool
  | [], d => d == 0
  | NavTok.openTag _ :: rest, d => d < 2 && navDepthOk rest (d + 1)
  | NavTok.closeTag :: rest, d => 0 < d && navDepthOk rest (d - 1)

/-- The chapter index of an opening fragment. -/
def navOpenIdx : NavTok → Option Nat
  | NavTok.openTag i => some i
  | NavTok.closeTag => none

mutual

/-- The nesting the claim describes, at top level: a non-volume chapter is an
immediate open/close pair; a volume opens a navPoint that wraps what follows. -/
def navSpec : List Chapter → Nat → List NavTok
  | [], _ => []
  | ch :: rest, i =>
    if ch.isVolume then NavTok.openTag i :: navSpecChildren rest (i + 1)
    else NavTok.openTag i :: NavTok.closeTag :: navSpec rest (i + 1)

/-- Inside an open volume navPoint: subsequent non-volume chapters nest as
open/close pairs; the volume's navPoint closes immediately before the next
volume's open, or at the end of the list. -/
def navSpecChildren : List Chapter → Nat → List NavTok
  | [], _ => [NavTok.closeTag]
  | ch :: rest, i =>
    if ch.isVolume then
      NavTok.closeTag :: NavTok.openTag i :: navSpecChildren rest (i + 1)
    else NavTok.openTag i :: NavTok.closeTag :: navSpecChildren rest (i + 1)

end

/-- The spine of content.opf: one `<itemref idref="chapN"/>` per chapter in
insertion order; this is the list of the `N`s. -/
def spineIdrefs (chapters : List Chapter) : List Nat :=
  chapters.enum.map fun p => p.1 + 1

theorem navTokensAux_eq_spec : ∀ (chs : List Chapter) (i : Nat),
    navTokensAux chs i false = navSpec chs i ∧
    navTokensAux chs i true = navSpecChildren chs i := by
  intro chs
  induction chs with
  | nil => intro i; simp [navTokensAux, navSpec, navSpecChildren]
  | cons ch rest ih =>
    intro i
    cases hv : ch.isVolume with
    | false =>
      constructor
      · simp only [navTokensAux, navSpec, hv, Bool.false_eq_true, if_false, (ih (i + 1)).1]
      · simp only [navTokensAux, navSpecChildren, hv, Bool.false_eq_true, if_false,
          (ih (i + 1)).2]
    | true =>
      constructor
      · simp only [navTokensAux, navSpec, hv, if_true, if_false, (ih (i + 1)).2]
        rfl
      · simp only [navTokensAux, navSpecChildren, hv, if_true, (ih (i + 1)).2]
        rfl

theorem navTokensAux_depth : ∀ (chs : List Chapter) (i : Nat),
    navDepthOk (navTokensAux chs i false) 0 = true ∧
    navDepthOk (navTokensAux chs i true) 1 = true := by
  intro chs
  induction chs with
  | nil => intro i; simp [navTokensAux, navDepthOk]
  | cons ch rest ih =>
    intro i
    cases hv : ch.isVolume with
    | false =>
      constructor
      · simp only [navTokensAux, hv, Bool.false_eq_true, if_false, navDepthOk]
        simpa using (ih (i + 1)).1
      · simp only [navTokensAux, hv, Bool.false_eq_true, if_false, navDepthOk]
        simpa using (ih (i + 1)).2
    | true =>
      constructor
      · simp only [navTokensAux, hv, if_true, if_false, List.nil_append, navDepthOk]
        simpa using (ih (i + 1)).2
      · simp only [navTokensAux, hv, if_true, List.cons_append, List.nil_append,
          navDepthOk]
        simpa using (ih (i + 1)).2

theorem navTokensAux_opens : ∀ (chs : List Chapter) (i : Nat) (n : Bool),
    (navTokensAux chs i n).filterMap navOpenIdx = List.range' i chs.length := by
  intro chs
  induction chs with
  | nil => intro i n; cases n <;> simp [navTokensAux, navOpenIdx, List.range']
  | cons ch rest ih =>
    intro i n
    cases hv : ch.isVolume with
    | false =>
      simp only [navTokensAux, hv, Bool.false_eq_true, if_false, List.filterMap_cons,
        navOpenIdx, List.length_cons, List.range'_succ, ih]
    | true =>
      cases n with
      | false =>
        simp [navTokensAux, hv, navOpenIdx, List.range'_succ, ih]
      | true =>
        simp [navTokensAux, hv, navOpenIdx, List.range'_succ, ih]

/-- C5: the spine carries exactly one itemref per chapter in insertion order
(`chap1`, `chap2`, …); the navMap emits exactly one opening navPoint per chapter
in order, every navPoint is eventually closed with nesting depth at most 2, and
the generated token stream equals the claim's nesting: each volume's navPoint
stays open wrapping all following non-volume chapters and closes immediately
before the next volume's navPoint or at the end of the list. -/
theorem c5_spine_and_navmap_structure (chapters : List Chapter) :
    spineIdrefs chapters = (List.range chapters.length).map (· + 1) ∧
    (navTokens chapters).filterMap navOpenIdx = List.range chapters.length ∧
    navDepthOk (navTokens chapters) 0 = true ∧
    navTokens chapters = navSpec chapters 0 := by
  refine ⟨?_, ?_, ?_, ?_⟩
  · have h : ((fun p : Nat × Chapter => p.1 + 1)) = ((· + 1) ∘ Prod.fst) := rfl
    rw [spineIdrefs, h, ← List.map_map, List.enum_map_fst]
  · rw [navTokens, navTokensAux_opens, List.range_eq_range']
  · exact (navTokensAux_depth chapters 0).1
  · exact (navTokensAux_eq_spec chapters 0).1

/-! ## C7: encoding-label resolution -/

/-- `detectedEncoding.toLowerCase()`: encoding labels are ASCII, where
JavaScript toLowerCase is the ASCII fold. -/
def jsToLower (s : String) : String :=
  String.mk (s.toList.map lowerc)

/-- The candidate list of `resolveSupportedEncoding`: the lowercased label, its
aliases, then the guaranteed `utf-8` fallback. -/
def encodingCandidates (detectedEncoding : String) : List String :=
  let normalized := jsToLower detectedEncoding
  [normalized] ++
    (if normalized = "gbk" then ["gb18030", "gb2312"] else []) ++
    (if normalized = "gb18030" then ["gbk", "gb2312"] else []) ++
    (if normalized = "shift-jis" then ["shift_jis", "sjis"] else []) ++
    (if normalized = "utf-16" then ["utf-16le", "utf-16be"] else []) ++
    ["utf-8"]

/-- The candidate loop of `resolveSupportedEncoding`: the first supported
candidate, `utf-8` when the loop falls through. -/
def resolveFirst (supported : String → Bool) : List String → String
  | [] => "utf-8"
  | e :: rest => if supported e then e else resolveFirst supported rest

/-- resolveSupportedEncoding from the source, with the runtime's
`isEncodingSupported` test (whether `new TextDecoder(label)` accepts the label)
as an oracle parameter. -/
def resolveSupportedEncoding (supported : String → Bool) (detectedEncoding : String) :
    String :=
  resolveFirst supported (encodingCandidates detectedEncoding)

theorem resolveFirst_eq_find (supported : String → Bool) :
    ∀ l : List String, resolveFirst supported l = (l.find? supported).getD "utf-8" := by
  intro l
  induction l with
  | nil => simp [resolveFirst]
  | cons e rest ih =>
    by_cases h : supported e = true
    · simp [resolveFirst, List.find?_cons, h]
    · simp only [Bool.not_eq_true] at h
      simp [resolveFirst, List.find?_cons, h, ih]

theorem resolveFirst_supported (supported : String → Bool)
    (hutf8 : supported "utf-8" = true) :
    ∀ l : List String, supported (resolveFirst supported l) = true := by
  intro l
  induction l with
  | nil => simpa [resolveFirst] using hutf8
  | cons e rest ih =>
    by_cases h : supported e = true
    · simp [resolveFirst, h]
    · simp only [Bool.not_eq_true] at h
      simpa [resolveFirst, h] using ih

/-- C7: given that the runtime's decoder accepts the label `utf-8` (the WHATWG
decoder always does), `resolveSupportedEncoding` returns a supported label: it
tries the lowercased detected label, then its aliases — gbk tries gb18030 and
gb2312, gb18030 tries gbk and gb2312, shift-jis tries shift_jis and sjis, utf-16
tries utf-16le and utf-16be — then `utf-8`, taking the first supported candidate,
and it never throws (it is total, with `utf-8` as final fallback even after the
loop). -/
theorem c7_resolve_supported_encoding (supported : String → Bool)
    (detectedEncoding : String) (hutf8 : supported "utf-8" = true) :
    supported (resolveSupportedEncoding supported detectedEncoding) = true ∧
    resolveSupportedEncoding supported detectedEncoding =
      ((encodingCandidates detectedEncoding).find? supported).getD "utf-8" ∧
    encodingCandidates "gbk" = ["gbk", "gb18030", "gb2312", "utf-8"] ∧
    encodingCandidates "GB18030" = ["gb18030", "gbk", "gb2312", "utf-8"] ∧
    encodingCandidates "Shift-JIS" = ["shift-jis", "shift_jis", "sjis", "utf-8"] ∧
    encodingCandidates "UTF-16" = ["utf-16", "utf-16le", "utf-16be", "utf-8"] ∧
    encodingCandidates "x-unknown" = ["x-unknown", "utf-8"] := by
  refine ⟨resolveFirst_supported supported hutf8 _,
    resolveFirst_eq_find supported _, by decide, by decide, by decide, by decide, by decide⟩

theorem c7_resolve_supported_encoding_witness :
    (fun e => e == "utf-8") (resolveSupportedEncoding (fun e => e == "utf-8") "x-unknown")
        = true ∧
    resolveSupportedEncoding (fun e => e == "utf-8") "x-unknown" =
      ((encodingCandidates "x-unknown").find? (fun e => e == "utf-8")).getD "utf-8" ∧
    encodingCandidates "gbk" = ["gbk", "gb18030", "gb2312", "utf-8"] ∧
    encodingCandidates "GB18030" = ["gb18030", "gbk", "gb2312", "utf-8"] ∧
    encodingCandidates "Shift-JIS" = ["shift-jis", "shift_jis", "sjis", "utf-8"] ∧
    encodingCandidates "UTF-16" = ["utf-16", "utf-16le", "utf-16be", "utf-8"] ∧
    encodingCandidates "x-unknown" = ["x-unknown", "utf-8"] :=
  c7_resolve_supported_encoding (fun e => e == "utf-8") "x-unknown" (by decide)

/-! ## Encoding detection: detectEncoding over an in-memory buffer (C8, C9) -/

/-- A byte buffer. -/
abbrev Bytes := List Nat

/-- A UTF-8 continuation byte. -/
def utf8Cont (b : Nat) : Bool :=
  0x80 ≤ b && b ≤ 0xbf

/-- WHATWG UTF-8 validity: whether `new TextDecoder('utf-8', { fatal: true })`
decodes the bytes without error (no overlong forms, no surrogates, maximum
U+10FFFF). -/
def validUtf8 : Bytes → Bool
  | [] => true
  | b :: rest =>
    if b ≤ 0x7f then validUtf8 rest
    else if 0xc2 ≤ b ∧ b ≤ 0xdf then
      match rest with
      | b1 :: r => utf8Cont b1 && validUtf8 r
      | [] => false
    else if b = 0xe0 then
      match rest with
      | b1 :: b2 :: r => (0xa0 ≤ b1 && b1 ≤ 0xbf) && utf8Cont b2 && validUtf8 r
      | _ => false
    else if (0xe1 ≤ b ∧ b ≤ 0xec) ∨ b = 0xee ∨ b = 0xef then
      match rest with
      | b1 :: b2 :: r => utf8Cont b1 && utf8Cont b2 && validUtf8 r
      | _ => false
    else if b = 0xed then
      match rest with
      | b1 :: b2 :: r => (0x80 ≤ b1 && b1 ≤ 0x9f) && utf8Cont b2 && validUtf8 r
      | _ => false
    else if b = 0xf0 then
      match rest with
      | b1 :: b2 :: b3 :: r =>
        (0x90 ≤ b1 && b1 ≤ 0xbf) && utf8Cont b2 && utf8Cont b3 && validUtf8 r
      | _ => false
    else if 0xf1 ≤ b ∧ b ≤ 0xf3 then
      match rest with
      | b1 :: b2 :: b3 :: r => utf8Cont b1 && utf8Cont b2 && utf8Cont b3 && validUtf8 r
      | _ => false
    else if b = 0xf4 then
      match rest with
      | b1 :: b2 :: b3 :: r =>
        (0x80 ≤ b1 && b1 ≤ 0x8f) && utf8Cont b2 && utf8Cont b3 && validUtf8 r
      | _ => false
    else false

/-- assertStrictUtf8Sample from the source, as the predicate "did not throw": a
failed decode retries with `startOffset`/`endOffset` each up to
`min 3 (length - 1)` bytes shaved off (not both zero, keeping at least 16
bytes). -/
def assertStrictUtf8Sample (sample : Bytes) : Bool :=
  if validUtf8 sample then true
  else
    let maxOffset := min 3 (sample.length - 1)
    (List.range (maxOffset + 1)).any fun so =>
      (List.range (maxOffset + 1)).any fun eo =>
        !(so == 0 && eo == 0) &&
          (let e := sample.length - eo
           decide (16 ≤ e - so) && validUtf8 ((sample.drop so).take (e - so)))

/-- The strict head/mid sampling of detectEncoding (lines 820-831): the
64 KiB head sample and, for buffers longer than twice the head sample, an
8 KiB sample at the midpoint. -/
def strictUtf8Pass (buffer : Bytes) : Bool :=
  assertStrictUtf8Sample (buffer.take (min buffer.length 65536)) &&
    (if 2 * min buffer.length 65536 < buffer.length then
      assertStrictUtf8Sample
        ((buffer.drop
            ((buffer.length - min 8192 (buffer.length - min buffer.length 65536)) / 2)).take
          (min 8192 (buffer.length - min buffer.length 65536)))
    else true)

/-- The tolerant windowed loop (lines 836-848): scan 100-byte windows over the
first `min length 10000` bytes, counting valid and checked bytes. -/
def tolerantLoop (arr : Bytes) (sampleSize : Nat) : Nat → Nat → Nat → Nat → Nat × Nat
  | 0, _, validB, checked => (validB, checked)
  | fuel + 1, i, validB, checked =>
    if i < sampleSize then
      if validUtf8 ((arr.drop i).take 100) then
        tolerantLoop arr sampleSize fuel (i + 100) (validB + 100) (checked + 100)
      else tolerantLoop arr sampleSize fuel (i + 1) validB (checked + 1)
    else (validB, checked)

/-- Whether the tolerant check accepts the buffer as UTF-8: more than 80% of the
checked bytes fell in cleanly-decoding windows. The float comparison
`(valid / checked) * 100 > 80` agrees with the exact rational comparison
`100 * valid > 80 * checked` for these magnitudes. -/
def tolerantUtf8Pass (buffer : Bytes) : Bool :=
  80 * (tolerantLoop buffer (min buffer.length 10000) (min buffer.length 10000 + 1) 0 0 0).2 <
    100 * (tolerantLoop buffer (min buffer.length 10000) (min buffer.length 10000 + 1) 0 0 0).1

/-- Shift-JIS lead byte. -/
def sjisLead (b : Nat) : Bool :=
  (0x81 ≤ b && b ≤ 0x9f) || (0xe0 ≤ b && b ≤ 0xfc)

/-- Shift-JIS trail byte. -/
def sjisTrail (b : Nat) : Bool :=
  (0x40 ≤ b && b ≤ 0x7e) || (0x80 ≤ b && b ≤ 0xfc)

/-- The adjacent-pair scan for a Shift-JIS lead/trail pattern. -/
def sjisPatternScan : Bytes → Bool
  | [] => false
  | [_] => false
  | b1 :: b2 :: rest => (sjisLead b1 && sjisTrail b2) || sjisPatternScan (b2 :: rest)

/-- detectEncoding from the source (in-memory variant, lines 819-913). The
float threshold comparisons `highByteRatio > 0.3` and `> 0.1` are written as the
exact rational comparisons `10 * count > 3 * length` and `10 * count > length`,
which they equal for every sample length up to 1024. -/
def detectEncoding (buffer : Bytes) : String :=
  if strictUtf8Pass buffer then "utf-8"
  else if tolerantUtf8Pass buffer then "utf-8"
  else if buffer.get? 0 = some 0xff ∧ buffer.get? 1 = some 0xfe then "utf-16le"
  else if buffer.get? 0 = some 0xfe ∧ buffer.get? 1 = some 0xff then "utf-16be"
  else if buffer.get? 0 = some 0xef ∧ buffer.get? 1 = some 0xbb ∧
      buffer.get? 2 = some 0xbf then "utf-8"
  else
    let sample := buffer.take (min 1024 buffer.length)
    let highByteCount := (sample.filter fun b => 0x80 ≤ b).length
    if 3 * sample.length < 10 * highByteCount then "gbk"
    else if sample.length < 10 * highByteCount then
      if sjisPatternScan sample then "shift-jis" else "gb18030"
    else "utf-8"

/-- C8: on a buffer that fails both the strict and the tolerant UTF-8 checks and
carries no BOM, detectEncoding is exactly the high-byte heuristic over the first
`min 1024 length` bytes: ratio above 0.3 gives gbk; ratio in (0.1, 0.3] gives
shift-jis when some adjacent pair has a Shift-JIS lead byte in
[0x81,0x9F] ∪ [0xE0,0xFC] followed by a trail byte in [0x40,0x7E] ∪ [0x80,0xFC],
and gb18030 otherwise; ratio at most 0.1 gives utf-8. -/
theorem c8_high_byte_heuristic (buffer : Bytes)
    (hstrict : strictUtf8Pass buffer = false)
    (htol : tolerantUtf8Pass buffer = false)
    (hb1 : ¬(buffer.get? 0 = some 0xff ∧ buffer.get? 1 = some 0xfe))
    (hb2 : ¬(buffer.get? 0 = some 0xfe ∧ buffer.get? 1 = some 0xff))
    (hb3 : ¬(buffer.get? 0 = some 0xef ∧ buffer.get? 1 = some 0xbb ∧
      buffer.get? 2 = some 0xbf)) :
    detectEncoding buffer =
      (let sample := buffer.take (min 1024 buffer.length)
       let highByteCount := (sample.filter fun b => 0x80 ≤ b).length
       if 3 * sample.length < 10 * highByteCount then "gbk"
       else if sample.length < 10 * highByteCount then
         if sjisPatternScan sample then "shift-jis" else "gb18030"
       else "utf-8") := by
  unfold detectEncoding
  rw [hstrict, htol]
  simp only [Bool.false_eq_true, if_false, if_neg hb1, if_neg hb2, if_neg hb3]

theorem c8_high_byte_heuristic_witness :
    detectEncoding (List.replicate 20 0x80) = "gbk" :=
  (c8_high_byte_heuristic (List.replicate 20 0x80) (by decide) (by decide)
    (by decide) (by decide) (by decide)).trans (by decide)

/-! ## C9: detectEncoding reads only bounded samples -/

theorem take_congr_of_take {α : Type} {a1 a2 : List α} {m : Nat}
    (h : a1.take m = a2.take m) {n : Nat} (hn : n ≤ m) : a1.take n = a2.take n := by
  have h1 : a1.take n = (a1.take m).take n := by
    rw [List.take_take, Nat.min_eq_left hn]
  have h2 : a2.take n = (a2.take m).take n := by
    rw [List.take_take, Nat.min_eq_left hn]
  rw [h1, h2, h]

theorem get?_congr_of_take {α : Type} {a1 a2 : List α} {m : Nat}
    (h : a1.take m = a2.take m) {i : Nat} (hi : i < m) : a1.get? i = a2.get? i := by
  have h1 : (a1.take m)[i]? = a1[i]? := List.getElem?_take_of_lt hi
  have h2 : (a2.take m)[i]? = a2[i]? := List.getElem?_take_of_lt hi
  rw [List.get?_eq_getElem?, List.get?_eq_getElem?, ← h1, ← h2, h]

theorem window_congr_of_take {α : Type} {a1 a2 : List α} {m : Nat}
    (h : a1.take m = a2.take m) {i k : Nat} (hik : i + k ≤ m) :
    (a1.drop i).take k = (a2.drop i).take k := by
  have e1 : (a1.take (i + k)).drop i = (a1.drop i).take k := by
    rw [List.drop_take]
    congr 1
    omega
  have e2 : (a2.take (i + k)).drop i = (a2.drop i).take k := by
    rw [List.drop_take]
    congr 1
    omega
  rw [← e1, ← e2, take_congr_of_take h hik]

theorem tolerantLoop_congr {a1 a2 : Bytes} {ss : Nat}
    (hw : ∀ i, i < ss → (a1.drop i).take 100 = (a2.drop i).take 100) :
    ∀ fuel i validB checked,
      tolerantLoop a1 ss fuel i validB checked = tolerantLoop a2 ss fuel i validB checked := by
  intro fuel
  induction fuel with
  | zero => intro i v c; simp [tolerantLoop]
  | succ n ih =>
    intro i v c
    simp only [tolerantLoop]
    by_cases hi : i < ss
    · rw [if_pos hi, if_pos hi, hw i hi]
      by_cases hv : validUtf8 ((a2.drop i).take 100) = true
      · rw [hv, if_pos rfl, if_pos rfl, ih]
      · simp only [Bool.not_eq_true] at hv
        rw [hv]
        simp only [Bool.false_eq_true, if_false, ih]
    · rw [if_neg hi, if_neg hi]

/-- C9: the classification is a function of a bounded sample. detectEncoding
reads the buffer only through the 64 KiB head sample (which also covers the
tolerant check's 10000-byte window, the BOM bytes and the 1 KiB high-byte
sample) and, when the buffer is longer than 128 KiB, the 8 KiB sample whose
window is centred at the midpoint; so two buffers of equal length agreeing on
the first 64 KiB and on that centred window are classified identically — in
particular a large all-ASCII file is classified without any full-buffer decode. -/
theorem c9_bounded_sample_determinism (b1 b2 : Bytes)
    (hlen : b1.length = b2.length)
    (hhead : b1.take 65536 = b2.take 65536)
    (hmid : (b1.drop ((b1.length - 8192) / 2)).take 8192 =
      (b2.drop ((b2.length - 8192) / 2)).take 8192) :
    detectEncoding b1 = detectEncoding b2 := by
  have hstrict : strictUtf8Pass b1 = strictUtf8Pass b2 := by
    unfold strictUtf8Pass
    rw [← hlen]
    have hhd : b1.take (min b1.length 65536) = b2.take (min b1.length 65536) :=
      take_congr_of_take hhead (Nat.min_le_right _ _)
    rw [hhd]
    by_cases hbig : 2 * min b1.length 65536 < b1.length
    · rw [if_pos hbig, if_pos hbig]
      have hge : 65536 ≤ b1.length := by omega
      have hminh : min b1.length 65536 = 65536 := Nat.min_eq_right hge
      rw [hminh] at hbig
      have hmsz : min 8192 (b1.length - min b1.length 65536) = 8192 := by
        rw [hminh]
        exact Nat.min_eq_left (by omega)
      rw [hmsz, hminh, hmid, hlen]
    · rw [if_neg hbig, if_neg hbig]
  have htol : tolerantUtf8Pass b1 = tolerantUtf8Pass b2 := by
    unfold tolerantUtf8Pass
    rw [← hlen]
    have hw : ∀ i, i < min b1.length 10000 →
        (b1.drop i).take 100 = (b2.drop i).take 100 := by
      intro i hi
      exact window_congr_of_take hhead (by omega)
    rw [tolerantLoop_congr hw]
  have hbom : ∀ i, i < 3 → b1.get? i = b2.get? i := by
    intro i hi
    rcases Nat.lt_or_ge b1.length 65536 with h | h
    · rcases Nat.lt_or_ge i b1.length with hlt | hge
      · exact get?_congr_of_take hhead (by omega)
      · have h1 : b1.get? i = none := List.get?_eq_none.mpr (by omega)
        have h2 : b2.get? i = none := List.get?_eq_none.mpr (by omega)
        rw [h1, h2]
    · exact get?_congr_of_take hhead (by omega)
  have hsample : b1.take (min 1024 b1.length) = b2.take (min 1024 b1.length) :=
    take_congr_of_take hhead (by omega)
  unfold detectEncoding
  rw [hstrict, htol, hbom 0 (by omega), hbom 1 (by omega), hbom 2 (by omega),
    ← hlen, hsample]

theorem c9_bounded_sample_determinism_witness :
    detectEncoding (List.replicate 300 65) = detectEncoding (List.replicate 300 65) :=
  c9_bounded_sample_determinism (List.replicate 300 65) (List.replicate 300 65)
    rfl rfl rfl

/-! ## C10: the ZIP entries of createEpub are deterministic and epoch-stamped -/

/-- The fixed `zipWriteOptions` of the source: `lastAccessDate` and `lastModDate`
both `new Date(0)`, kept as milliseconds since the Unix epoch. -/
structure ZipWriteOpts where
  lastAccessDate : Nat
  lastModDate : Nat
deriving DecidableEq, Repr

def zipWriteOptions : ZipWriteOpts :=
  { lastAccessDate := 0, lastModDate := 0 }

/-- One `zipWriter.add(path, new TextReader(content), options)` call. -/
structure ZipEntry where
  path : String
  content : Str
  options : ZipWriteOpts
deriving DecidableEq, Repr

/-- The ZipWriter construction options: `extendedTimestamp: false`. -/
structure ZipWriterCfg where
  extendedTimestamp : Bool
deriving DecidableEq, Repr

def zipWriterCfg : ZipWriterCfg :=
  { extendedTimestamp := false }

/-- One opening navPoint fragment of the navPoints loop (id `chapterN`,
playOrder `N`). -/
def navOpenStr (ch : Chapter) (i : Nat) : Str :=
  "<navPoint id=\"navPoint-chapter".toList ++ natStr (i + 1) ++
    "\" playOrder=\"".toList ++ natStr (i + 1) ++ "\">\n<navLabel><text>".toList ++
    ch.title ++ "</text></navLabel>\n<content src=\"./OEBPS/chapter".toList ++
    natStr (i + 1) ++ ".xhtml\" />\n".toList

/-- The navPoints loop of createEpub as the raw string (the final close emitted
after the loop carries no trailing newline). -/
def navPointsStrAux : List Chapter → Nat → Bool → Str
  | [], _, isNested => if isNested then "</navPoint>".toList else []
  | ch :: rest, i, isNested =>
    if ch.isVolume then
      (if isNested then "</navPoint>\n".toList else []) ++
        navOpenStr ch i ++ navPointsStrAux rest (i + 1) true
    else
      navOpenStr ch i ++ "</navPoint>\n".toList ++ navPointsStrAux rest (i + 1) isNested

def navPointsStr (chapters : List Chapter) : Str :=
  navPointsStrAux chapters 0 false

/-- META-INF/container.xml (lines 690-695), template whitespace included. -/
def containerXml : Str :=
  jsTrim ("<?xml version=\"1.0\" encoding=\"UTF-8\"?>\n    <container xmlns=\"urn:oasis:names:tc:opendocument:xmlns:container\" version=\"1.0\">\n      <rootfiles>\n        <rootfile full-path=\"content.opf\" media-type=\"application/oebps-package+xml\"/>\n      </rootfiles>\n    </container>").toList

/-- toc.ncx (lines 724-741). -/
def tocNcx (chapters : List Chapter) (md : Metadata) : Str :=
  jsTrim
    (("<?xml version=\"1.0\" encoding=\"UTF-8\"?>\n    <ncx xmlns=\"http://www.daisy.org/z3986/2005/ncx/\" version=\"2005-1\">\n      <head>\n        <meta name=\"dtb:uid\" content=\"book-id\" />\n        <meta name=\"dtb:depth\" content=\"1\" />\n        <meta name=\"dtb:totalPageCount\" content=\"0\" />\n        <meta name=\"dtb:maxPageNumber\" content=\"0\" />\n      </head>\n      <docTitle>\n        <text>").toList ++
      escapeXml md.bookTitle ++
      "</text>\n      </docTitle>\n      <docAuthor>\n        <text>".toList ++
      escapeXml md.author ++
      "</text>\n      </docAuthor>\n      <navMap>\n        ".toList ++
      navPointsStr chapters ++
      "\n      </navMap>\n    </ncx>".toList)

/-- One manifest item of the per-chapter map (lines 746-753). -/
def manifestItem (i : Nat) : Str :=
  "\n      <item id=\"chap".toList ++ natStr (i + 1) ++
    "\" href=\"OEBPS/chapter".toList ++ natStr (i + 1) ++
    ".xhtml\" media-type=\"application/xhtml+xml\"/>\n    ".toList

def manifestStr (chapters : List Chapter) : Str :=
  jsTrim (List.intercalate ['\n'] (chapters.enum.map fun p => manifestItem p.1))

/-- One spine itemref of the per-chapter map (lines 755-761). -/
def spineItem (i : Nat) : Str :=
  "\n      <itemref idref=\"chap".toList ++ natStr (i + 1) ++ "\"/>".toList

def spineStr (chapters : List Chapter) : Str :=
  jsTrim (List.intercalate ['\n'] (chapters.enum.map fun p => spineItem p.1))

/-- style.css (lines 764-767), added untrimmed. -/
def styleCss : Str :=
  ("\n      body \x7b line-height: 1.6; font-size: 1em; font-family: 'Arial', sans-serif; text-align: justify; \x7d\n      p \x7b text-indent: 2em; margin: 0; \x7d\n    ").toList

/-- One chapter XHTML document (lines 775-783). -/
def chapterXhtml (language : String) (ch : Chapter) : Str :=
  jsTrim
    (("<?xml version=\"1.0\" encoding=\"UTF-8\"?>\n        <!DOCTYPE html PUBLIC \"-//W3C//DTD XHTML 1.1//EN\" \"http://www.w3.org/TR/xhtml11/DTD/xhtml11.dtd\">\n        <html xmlns=\"http://www.w3.org/1999/xhtml\" lang=\"").toList ++
      language.toList ++ "\" xml:lang=\"".toList ++ language.toList ++
      "\">\n          <head>\n            <title>".toList ++ ch.title ++
      "</title>\n            <link rel=\"stylesheet\" type=\"text/css\" href=\"../style.css\"/>\n          </head>\n          <body>".toList ++
      ch.content ++ "</body>\n        </html>".toList)

def tocManifest : Str :=
  "<item id=\"ncx\" href=\"toc.ncx\" media-type=\"application/x-dtbncx+xml\"/>".toList

def styleManifest : Str :=
  "<item id=\"css\" href=\"style.css\" media-type=\"text/css\"/>".toList

/-- content.opf (lines 796-812). -/
def contentOpf (chapters : List Chapter) (md : Metadata) : Str :=
  jsTrim
    (("<?xml version=\"1.0\" encoding=\"UTF-8\"?>\n      <package xmlns=\"http://www.idpf.org/2007/opf\" unique-identifier=\"book-id\" version=\"2.0\">\n        <metadata xmlns:dc=\"http://purl.org/dc/elements/1.1/\">\n          <dc:title>").toList ++
      escapeXml md.bookTitle ++ "</dc:title>\n          <dc:language>".toList ++
      md.language.toList ++ "</dc:language>\n          <dc:creator>".toList ++
      escapeXml md.author ++ "</dc:creator>\n          <dc:identifier id=\"book-id\">".toList ++
      md.identifier ++ "</dc:identifier>\n        </metadata>\n        <manifest>\n          ".toList ++
      manifestStr chapters ++ "\n          ".toList ++ tocManifest ++
      "\n          ".toList ++ styleManifest ++
      "\n        </manifest>\n        <spine toc=\"ncx\">\n          ".toList ++
      spineStr chapters ++ "\n        </spine>\n      </package>".toList)

/-- The ordered `zipWriter.add` calls of createEpub: path, text content and the
write options passed with each entry. -/
def createEpubEntries (chapters : List Chapter) (md : Metadata) : List ZipEntry :=
  [⟨"mimetype", "application/epub+zip".toList, zipWriteOptions⟩,
   ⟨"META-INF/container.xml", containerXml, zipWriteOptions⟩,
   ⟨"toc.ncx", tocNcx chapters md, zipWriteOptions⟩,
   ⟨"style.css", styleCss, zipWriteOptions⟩] ++
  (chapters.enum.map fun p =>
    ⟨"OEBPS/chapter" ++ toString (p.1 + 1) ++ ".xhtml",
      chapterXhtml md.language p.2, zipWriteOptions⟩) ++
  [⟨"content.opf", contentOpf chapters md, zipWriteOptions⟩]

/-- C10: the writer is configured with extended timestamps disabled, every entry
createEpub adds (mimetype, META-INF/container.xml, toc.ncx, style.css, each
OEBPS/chapterN.xhtml, content.opf) carries the fixed epoch write options
`lastModDate = lastAccessDate = new Date(0)`, and the entry list is a pure
function of the chapter list and metadata, so two calls with equal inputs hand
the ZIP serializer byte-identical input. -/
theorem c10_epoch_timestamps_reproducible (chapters : List Chapter) (md : Metadata) :
    zipWriterCfg.extendedTimestamp = false ∧
    zipWriteOptions.lastModDate = 0 ∧
    zipWriteOptions.lastAccessDate = 0 ∧
    (∀ e ∈ createEpubEntries chapters md, e.options = zipWriteOptions) ∧
    (∀ chapters2 md2, chapters = chapters2 → md = md2 →
      createEpubEntries chapters md = createEpubEntries chapters2 md2) := by
  refine ⟨rfl, rfl, rfl, ?_, ?_⟩
  · intro e he
    simp only [createEpubEntries, List.mem_append, List.mem_cons,
      List.not_mem_nil, or_false, List.mem_map, List.mem_singleton] at he
    rcases he with ((rfl | rfl | rfl | rfl) | ⟨p, _, rfl⟩) | rfl <;> rfl
  · intro chapters2 md2 hc hm
    rw [hc, hm]

end ReadestTxt



